import Mathlib

/-!
Verification of the flight-price report pipeline (`processor.py`).

The Python module is shallowly embedded as follows:

* Python `float` values that the program treats as exact decimals
  (prices, layover hours, scores) are modelled as `ℚ`; Python `int` as `ℤ`/`ℕ`.
* Python strings are Lean `String` (lists of characters); helper operations
  (`str.join`, `str.replace`, slicing, `in`) are modelled by small executable
  definitions on `List Char` that follow CPython's documented behaviour.
* Python exceptions (`ValueError` from `int()`, `IndexError` from list
  indexing, `KeyError`, I/O errors) are modelled with `Except Unit`:
  a raised, uncaught exception is `.error ()`.
* Python's `sorted(..., key=k)` is a stable ascending sort; it is modelled by
  `List.insertionSort (fun a b => k a ≤ k b)`, which inserts each element
  before the first strictly greater one and is therefore stable
  (Mathlib's `List.sublist_insertionSort` is exactly this stability property).
-/

/-- Kernel for Python `int(s)` on a digit string: fold the decimal digits. -/
def digitsToNat (l : List Char) : ℕ :=
  l.foldl (fun n c => 10 * n + (c.toNat - 48)) 0

/-- Value of a nonempty all-digit character list, else error.
Helper for `pyInt`. -/
def digitsVal (l : List Char) : Except Unit ℕ :=
  if l.isEmpty then .error ()
  else if l.all Char.isDigit then .ok (digitsToNat l) else .error ()

/-- Models Python `int(s)` on a string with an optional sign followed by
decimal digits (the only shapes this program feeds to `int`); any other
shape raises `ValueError`, modelled as `.error ()`. -/
def pyInt : List Char → Except Unit ℤ
  | [] => .error ()
  | c :: cs =>
    if c = '-' then Except.map (fun n => -(n : ℤ)) (digitsVal cs)
    else if c = '+' then Except.map (fun n => (n : ℤ)) (digitsVal cs)
    else Except.map (fun n => (n : ℤ)) (digitsVal (c :: cs))

/-- Embedding of `parse_duration_to_minutes` (processor.py lines 137-155).
`parts = duration_str.lower().replace(" ", "")`; if `"h" in parts` the text
before the first `h` (when nonempty) is parsed as hours and `parts` becomes
`parts.split("h")[1]` (the text between the first and second `h`); if
`"m" in parts` the text before the first `m` (when nonempty) is parsed as
minutes; the result is `hours * 60 + minutes`.  `int()` failures propagate. -/
def parse_duration_to_minutes (s : String) : Except Unit ℤ :=
  let parts0 := (s.toList.map Char.toLower).filter (fun c => c ≠ ' ')
  let hres : Except Unit (ℤ × List Char) :=
    if 'h' ∈ parts0 then
      let h := parts0.takeWhile (fun c => c ≠ 'h')
      let rest := ((parts0.dropWhile (fun c => c ≠ 'h')).tail).takeWhile (fun c => c ≠ 'h')
      if h.isEmpty then .ok (0, rest)
      else Except.map (fun z => (z, rest)) (pyInt h)
    else .ok (0, parts0)
  match hres with
  | .error e => .error e
  | .ok (hours, parts) =>
    let mres : Except Unit ℤ :=
      if 'm' ∈ parts then
        let m := parts.takeWhile (fun c => c ≠ 'm')
        if m.isEmpty then .ok 0 else pyInt m
      else .ok 0
    match mres with
    | .error e => .error e
    | .ok minutes => .ok (hours * 60 + minutes)

/-- Decimal digit characters of `n`, most significant first (the canonical
rendering of a non-negative integer, as in the spec's `"<h>h <m>m"`). -/
def natDigits (n : ℕ) : List Char :=
  if n < 10 then [Nat.digitChar n]
  else natDigits (n / 10) ++ [Nat.digitChar (n % 10)]
termination_by n
decreasing_by exact Nat.div_lt_self (by omega) (by norm_num)

/-- The spec's rendering `"<h>h <m>m"` of a duration. -/
def renderDuration (h m : ℕ) : String :=
  ⟨natDigits h ++ 'h' :: ' ' :: (natDigits m ++ ['m'])⟩

/-- Rendering `"<h>h"` of a duration with no minutes part. -/
def renderHours (h : ℕ) : String := ⟨natDigits h ++ ['h']⟩

/-- Rendering `"<m>m"` of a duration with no hours part. -/
def renderMinutes (m : ℕ) : String := ⟨natDigits m ++ ['m']⟩

/-- Models Python `sep.join(parts)`. -/
def pyJoin (sep : String) : List String → String
  | [] => ""
  | [s] => s
  | s :: ss => s ++ sep ++ pyJoin sep ss

/-- Embedding of `_pad` (processor.py lines 62-72): truncate to `width` when too
long, else pad according to the alignment.  `center` follows CPython's
`str.center`, which puts the extra space on the left exactly when both the
margin and the width are odd. -/
def pad (text : String) (width : ℕ) (align : String) : String :=
  if width < text.length then ⟨text.toList.take width⟩
  else if align = "right" then ⟨List.replicate (width - text.length) ' ' ++ text.toList⟩
  else if align = "center" then
    let marg := width - text.length
    let left := marg / 2 + (if marg % 2 = 1 ∧ width % 2 = 1 then 1 else 0)
    ⟨List.replicate left ' ' ++ text.toList ++ List.replicate (marg - left) ' '⟩
  else ⟨text.toList ++ List.replicate (width - text.length) ' '⟩

/-- Embedding of `auto_column_widths` (processor.py lines 83-96): per column,
the maximum of the header length and all cell lengths in that column (cells
beyond a row's length are skipped), plus `padding`.  Cells are already
strings in this model, so Python's `str(row[i])` is the identity. -/
def auto_column_widths (headers : List String) (rows : List (List String))
    (padding : ℕ) : List ℕ :=
  let maxLengths := rows.foldl
    (fun acc row => acc.mapIdx (fun i m =>
      match row.get? i with
      | some c => max m c.length
      | none => m))
    (headers.map String.length)
  maxLengths.map (fun l => l + padding)

/-- Fallible list indexing: Python `l[i]`, raising `IndexError` out of range. -/
def getE {α : Type} (l : List α) (i : ℕ) : Except Unit α :=
  match l.get? i with
  | some a => .ok a
  | none => .error ()

/-- The cell-padding generator inside `format_row`
(`_pad(str(cell), widths[i], aligns[i]) for i, cell in enumerate(row)`),
with `k` the index of the first cell.  An out-of-range `widths[i]` or
`aligns[i]` raises `IndexError`. -/
def padCells (widths : List ℕ) (aligns : List String) (k : ℕ) :
    List String → Except Unit (List String)
  | [] => .ok []
  | c :: cs => do
    let w ← getE widths k
    let a ← getE aligns k
    let rest ← padCells widths aligns (k + 1) cs
    pure (pad c w a :: rest)

/-- Embedding of `format_row` inside `make_table` (processor.py lines 122-125). -/
def format_row (widths : List ℕ) (aligns : List String) (row : List String) :
    Except Unit String :=
  Except.map (fun padded => "| " ++ pyJoin " | " padded ++ " |")
    (padCells widths aligns 0 row)

/-- The border line of `make_table` (processor.py line 127). -/
def tableBorder (widths : List ℕ) : String :=
  "+-" ++ pyJoin "-+-" (widths.map (fun w => (⟨List.replicate w '-'⟩ : String))) ++ "-+"

/-- Embedding of `make_table` (processor.py lines 115-134), as the list of
lines it accumulates before the final `"\n".join`.  `aligns0 = none` models
the Python default `aligns=None`, which becomes `["left"] * len(headers)`. -/
def make_table_lines (headers : List String) (rows : List (List String))
    (widths : List ℕ) (aligns0 : Option (List String)) : Except Unit (List String) := do
  let aligns := match aligns0 with
    | none => List.replicate headers.length "left"
    | some a => a
  let border := tableBorder widths
  let headerRow ← format_row widths aligns headers
  let dataRows ← rows.mapM (format_row widths aligns)
  pure ([border, headerRow, border] ++ dataRows ++ [border])

/-- Embedding of `make_table`: the joined table string. -/
def make_table (headers : List String) (rows : List (List String))
    (widths : List ℕ) (aligns0 : Option (List String)) : Except Unit String :=
  Except.map (pyJoin "\n") (make_table_lines headers rows widths aligns0)

deriving instance DecidableEq for Except

/-- Round half to even (banker's rounding): models Python's `round` and the
rounding used by `format` on the exact decimal values this program handles. -/
def roundHalfEven (q : ℚ) : ℤ :=
  if q - ⌊q⌋ < 1 / 2 then ⌊q⌋
  else if q - ⌊q⌋ > 1 / 2 then ⌊q⌋ + 1
  else if ⌊q⌋ % 2 = 0 then ⌊q⌋ else ⌊q⌋ + 1

/-- Zero-padded two-digit rendering of `n % 100`-sized numbers. -/
def twoDigits (n : ℕ) : String :=
  if n < 10 then ⟨'0' :: natDigits n⟩ else ⟨natDigits n⟩

/-- Models Python `f"{x:.2f}"` on exact decimal values. -/
def fmt2 (q : ℚ) : String :=
  let n := roundHalfEven (100 * q)
  (if n < 0 then "-" else "") ++ ⟨natDigits (n.natAbs / 100)⟩ ++ "." ++ twoDigits (n.natAbs % 100)

/-- Models Python `f"{x:.1f}"` on exact decimal values. -/
def fmt1 (q : ℚ) : String :=
  let n := roundHalfEven (10 * q)
  (if n < 0 then "-" else "") ++ ⟨natDigits (n.natAbs / 10)⟩ ++ "." ++ ⟨natDigits (n.natAbs % 10)⟩

/-- The price-history mapping (Python dict from date string to price), as an
association list in insertion order. -/
abbrev History := List (String × ℚ)

/-- Python `dict[k] = v`: overwrite in place if the key exists, else append. -/
def dictSet (k : String) (v : ℚ) : History → History
  | [] => [(k, v)]
  | (k', v') :: rest => if k' = k then (k, v) :: rest else (k', v') :: dictSet k v rest

/-- The observable filesystem behaviour during one `detect_price_drop` call:
whether the history file exists, what reading it yields (`.error ()` models an
exception raised while opening or JSON-decoding it), and whether the
write-back succeeds. -/
structure FileIO where
  fileExists : Bool
  readResult : Except Unit History
  writeOk : Bool

/-- Embedding of `_load_price_history` (processor.py lines 162-169): a missing
file or any read/parse failure yields the empty mapping (the body catches
every exception). -/
def load_price_history (io : FileIO) : History :=
  if io.fileExists = false then []
  else
    match io.readResult with
    | .ok h => h
    | .error _ => []

/-- Embedding of `_save_price_history` (processor.py lines 172-174): the body
has no try/except, so a failing write raises to the caller. -/
def save_price_history (io : FileIO) (_h : History) : Except Unit Unit :=
  if io.writeOk then .ok () else .error ()

/-- Embedding of `detect_price_drop` (processor.py lines 177-198): load the
history, remember the previous price for the date, unconditionally overwrite
and save, then compare.  The persisted history is returned alongside the
optional message to expose the write-through side effect.  Python's
`float(...)` on the already-numeric prices is the identity. -/
def detect_price_drop (io : FileIO) (date_str : String) (current_price : ℚ) :
    Except Unit (History × Option String) := do
  let history := load_price_history io
  let prev_price := history.lookup date_str
  let history := dictSet date_str current_price history
  let _ ← save_price_history io history
  match prev_price with
  | none => pure (history, none)
  | some prev =>
    if current_price < prev then
      pure (history, some ("🔥 Price drop on " ++ date_str ++ ": was $" ++ fmt2 prev
        ++ ", now $" ++ fmt2 current_price ++ " (↓ $" ++ fmt2 (prev - current_price) ++ ")"))
    else pure (history, none)

/-- A normalized flight record: the dict produced by `extract_flights`
(processor.py lines 262-271) and consumed by `compute_best_day` and the
report builders. -/
structure Flight where
  airline : String
  price : ℚ
  duration : String
  stops : ℤ
  layover_city : String
  layover_hours : ℚ
  departure : String
  arrival : String
deriving DecidableEq

/-- A day bucket handed to `compute_best_day`: the dict with keys
`"date"` and `"flights"`. -/
structure Day where
  date : String
  flights : List Flight
deriving DecidableEq

/-- A flight together with the helper values `compute_best_day` adds
(`price_val`, `layover_val`, `duration_val`; lines 300-312). -/
structure NormFlight where
  flight : Flight
  price_val : ℚ
  layover_val : ℚ
  duration_val : ℤ
deriving DecidableEq

/-- The `cheapest` category dict built at lines 318-324. -/
structure Cheapest where
  date : String
  price : ℚ
  airline : String
  layover_city : String
  layover_hours : ℚ
deriving DecidableEq

/-- The `shortest_duration` category dict built at lines 335-343. -/
structure ShortestDuration where
  date : String
  price : ℚ
  airline : String
  duration : String
  duration_minutes : ℤ
  layover_city : String
  layover_hours : ℚ
deriving DecidableEq

/-- The `shortest_layover` category dict built at lines 352-358. -/
structure ShortestLayover where
  date : String
  price : ℚ
  airline : String
  layover_city : String
  layover_hours : ℚ
deriving DecidableEq

/-- A scored entry of the `top3_overall` list (lines 367-375). -/
structure Scored where
  date : String
  score : ℚ
  price : ℚ
  airline : String
  duration : String
  layover_city : String
  layover_hours : ℚ
deriving DecidableEq

/-- The dict returned by `compute_best_day` (lines 395-401). -/
structure BestDayResult where
  cheapest : Option Cheapest
  shortest_duration : Option ShortestDuration
  shortest_layover : Option ShortestLayover
  top3_overall : List Scored
  text_summary : String
deriving DecidableEq

/-- Python's stable ascending `sorted(l, key=key)`: insertion sort placing
each element before the first strictly greater one, which preserves the
relative order of equal keys. -/
def pySortedBy {α β : Type} [LinearOrder β] (key : α → β) (l : List α) : List α :=
  List.insertionSort (fun a b => key a ≤ key b) l

/-- Python `l[0]`: the head, or an `IndexError` on an empty list. -/
def headE {α : Type} : List α → Except Unit α
  | [] => .error ()
  | a :: _ => .ok a

/-- The normalization loop at the top of the per-day body (lines 300-312):
`float` on the already-numeric price and layover is the identity, and
`parse_duration_to_minutes` failures propagate. -/
def normFlights (fs : List Flight) : Except Unit (List NormFlight) :=
  fs.mapM (fun f => do
    let d ← parse_duration_to_minutes f.duration
    pure { flight := f, price_val := f.price, layover_val := f.layover_hours,
           duration_val := d })

/-- The scored entries one day contributes to `scored_flights`
(lines 360-375): `score = price/1000 + duration_minutes/1000 + layover/10`. -/
def scoredOfDay (date : String) (nfs : List NormFlight) : List Scored :=
  nfs.map (fun f =>
    { date := date
      score := f.price_val / 1000 + (f.duration_val : ℚ) / 1000 + f.layover_val / 10
      price := f.price_val
      airline := f.flight.airline
      duration := f.flight.duration
      layover_city := f.flight.layover_city
      layover_hours := f.layover_val })

/-- The running state of `compute_best_day`'s fold over days. -/
structure BestAcc where
  cheapest : Option Cheapest
  shortest_duration : Option ShortestDuration
  shortest_layover : Option ShortestLayover
  scored_flights : List Scored
deriving DecidableEq

/-- One iteration of `for day in all_days` (lines 293-375): empty days are
skipped; otherwise the day's flights are normalized, each category keeps the
first element of a stable sort of the day and replaces the running best only
under strict less-than, and the day's scored entries are appended. -/
def stepDay (acc : BestAcc) (day : Day) : Except Unit BestAcc :=
  match day.flights with
  | [] => .ok acc
  | _ :: _ => do
    let norm ← normFlights day.flights
    let cheapest_flight ← headE (pySortedBy (fun x => x.price_val) norm)
    let cheapCand : Cheapest :=
      { date := day.date
        price := cheapest_flight.price_val
        airline := cheapest_flight.flight.airline
        layover_city := cheapest_flight.flight.layover_city
        layover_hours := cheapest_flight.layover_val }
    let new_cheapest :=
      match acc.cheapest with
      | none => some cheapCand
      | some c => if cheapest_flight.price_val < c.price then some cheapCand else some c
    let sd_flight ← headE (pySortedBy (fun x => x.duration_val) norm)
    let sdCand : ShortestDuration :=
      { date := day.date
        price := sd_flight.price_val
        airline := sd_flight.flight.airline
        duration := sd_flight.flight.duration
        duration_minutes := sd_flight.duration_val
        layover_city := sd_flight.flight.layover_city
        layover_hours := sd_flight.layover_val }
    let new_sd :=
      match acc.shortest_duration with
      | none => some sdCand
      | some c => if sd_flight.duration_val < c.duration_minutes then some sdCand else some c
    let sl_flight ← headE (pySortedBy (fun x => x.layover_val) norm)
    let slCand : ShortestLayover :=
      { date := day.date
        price := sl_flight.price_val
        airline := sl_flight.flight.airline
        layover_city := sl_flight.flight.layover_city
        layover_hours := sl_flight.layover_val }
    let new_sl :=
      match acc.shortest_layover with
      | none => some slCand
      | some c => if sl_flight.layover_val < c.layover_hours then some slCand else some c
    pure { cheapest := new_cheapest
           shortest_duration := new_sd
           shortest_layover := new_sl
           scored_flights := acc.scored_flights ++ scoredOfDay day.date norm }

/-- Embedding of `compute_best_day` (processor.py lines 280-401). -/
def compute_best_day (all_days : List Day) : Except Unit BestDayResult := do
  let acc ← all_days.foldlM stepDay ⟨none, none, none, []⟩
  let top3 := (pySortedBy (fun x => x.score) acc.scored_flights).take 3
  let parts :=
    (match acc.cheapest with
      | some c => ["Cheapest Day: " ++ c.date ++ " — $" ++ fmt2 c.price]
      | none => []) ++
    (match acc.shortest_duration with
      | some d => ["Shortest Duration: " ++ d.date ++ " — " ++ d.duration]
      | none => []) ++
    (match acc.shortest_layover with
      | some l => ["Shortest Layover: " ++ l.date ++ " — " ++ fmt1 l.layover_hours ++ "h"]
      | none => [])
  pure { cheapest := acc.cheapest, shortest_duration := acc.shortest_duration,
         shortest_layover := acc.shortest_layover, top3_overall := top3,
         text_summary := pyJoin "\n" parts }

/-- The scored entries of one day bucket (empty days contribute nothing). -/
def scoredOfOneDay (d : Day) : Except Unit (List Scored) :=
  match d.flights with
  | [] => pure []
  | _ :: _ => do
    let n ← normFlights d.flights
    pure (scoredOfDay d.date n)

/-- The flattened scored-record list over all non-empty days, in encounter
order (earlier day first, within-day position preserved): the spec's view of
the records `compute_best_day` scores. -/
def scoredOfDays (days : List Day) : Except Unit (List Scored) := do
  let perDay ← days.mapM scoredOfOneDay
  pure perDay.flatten

/-- The prices of one day bucket. -/
def dayPrices (d : Day) : List ℚ := d.flights.map (fun f => f.price)

/-- All prices of all day buckets. -/
def allPrices (days : List Day) : List ℚ := days.flatMap dayPrices

/-- Flight literal helper for concrete examples. -/
def mkFlight (airline : String) (price : ℚ) (duration : String) (layover : ℚ) : Flight :=
  { airline := airline, price := price, duration := duration, stops := 0,
    layover_city := "", layover_hours := layover, departure := "", arrival := "" }

/-- The spec's stability example: scores `[0.5, 0.5, 0.3]` in encounter order
`[A, B, C]` (A and B on the first day, C on the second). -/
def exampleDaysC1 : List Day :=
  [ { date := "d1", flights := [mkFlight "A" 500 "0h 0m" 0, mkFlight "B" 500 "0h 0m" 0] },
    { date := "d2", flights := [mkFlight "C" 300 "0h 0m" 0] } ]

/-- The spec's cheapest-day example: prices `[100, 50, 200]`, `[300]`, `[10]`. -/
def exampleDaysC2 : List Day :=
  [ { date := "d1", flights := [mkFlight "X" 100 "1h" 0, mkFlight "Y" 50 "1h" 0,
        mkFlight "Z" 200 "1h" 0] },
    { date := "d2", flights := [mkFlight "U" 300 "1h" 0] },
    { date := "d3", flights := [mkFlight "V" 10 "1h" 0] } ]

/-- Decimal rendering of an integer (Python `str` on `int`). -/
def intStr (z : ℤ) : String :=
  (if z < 0 then "-" else "") ++ ⟨natDigits z.natAbs⟩

/-- Embedding of `render_ascii_block` (processor.py lines 75-80). -/
def render_ascii_block (table : String) : String := "```\n" ++ table ++ "\n```"

/-- The interface dict of `build_best_day_section`: `compute_best_day`'s three
optional category entries. -/
structure BestDaysRaw where
  cheapest : Option Cheapest
  shortest_duration : Option ShortestDuration
  shortest_layover : Option ShortestLayover
deriving DecidableEq

/-- `BestDayCategory` (processor.py lines 29-36). -/
structure BestDayCategory where
  category : String
  date : String
  price : ℚ
  airline : String
  layover_city : String
  layover_hours : ℚ
deriving DecidableEq

/-- Models `c = cheapest.copy(); c["category"] = "Cheapest Day";
parse_best_day_category(c)` (lines 552-556 with 429-437). -/
def catOfCheapest (c : Cheapest) : BestDayCategory :=
  ⟨"Cheapest Day", c.date, c.price, c.airline, c.layover_city, c.layover_hours⟩

/-- The `"Shortest Duration"` category entry (lines 558-562); the extra
`duration`/`duration_minutes` keys are ignored by `parse_best_day_category`. -/
def catOfShortestDuration (c : ShortestDuration) : BestDayCategory :=
  ⟨"Shortest Duration", c.date, c.price, c.airline, c.layover_city, c.layover_hours⟩

/-- The `"Shortest Layover"` category entry (lines 564-568). -/
def catOfShortestLayover (c : ShortestLayover) : BestDayCategory :=
  ⟨"Shortest Layover", c.date, c.price, c.airline, c.layover_city, c.layover_hours⟩

/-- Embedding of `build_best_day_summary_table` (processor.py lines 466-483). -/
def build_best_day_summary_table (categories : List BestDayCategory) : Except Unit String :=
  let headers := ["Category", "Date", "Price", "Airline", "Layover"]
  let rows := categories.map (fun c =>
    [c.category, c.date, fmt2 c.price, c.airline,
     c.layover_city ++ " — " ++ fmt1 c.layover_hours ++ "h"])
  make_table headers rows (auto_column_widths headers rows 2)
    (some ["left", "left", "right", "left", "left"])

/-- Embedding of `build_best_day_section` (processor.py lines 546-574). -/
def build_best_day_section (raw : BestDaysRaw) : Except Unit String :=
  let categories :=
    (match raw.cheapest with | some c => [catOfCheapest c] | none => []) ++
    (match raw.shortest_duration with | some c => [catOfShortestDuration c] | none => []) ++
    (match raw.shortest_layover with | some c => [catOfShortestLayover c] | none => [])
  if categories = [] then pure "No best-day summary available."
  else do
    let table ← build_best_day_summary_table categories
    pure ("🌟 BEST DAY TO FLY SUMMARY 🌟\n\n" ++ render_ascii_block table)

/-- `OverallBestDay` (processor.py lines 39-47). -/
structure OverallBestDay where
  date : String
  score : ℚ
  price : ℚ
  airline : String
  duration : String
  layover_city : String
  layover_hours : ℚ
deriving DecidableEq

/-- Embedding of `parse_overall_best_day` (lines 440-449): the raw dicts are
`compute_best_day`'s `top3_overall` entries, whose keys are all present. -/
def parse_overall_best_day (raw : Scored) : OverallBestDay :=
  ⟨raw.date, raw.score, raw.price, raw.airline, raw.duration,
   raw.layover_city, raw.layover_hours⟩

/-- Embedding of `parse_best_overall_days` (lines 452-459). -/
def parse_best_overall_days (raw : List Scored) : List OverallBestDay :=
  raw.map parse_overall_best_day

/-- Embedding of `build_top3_overall_table` (processor.py lines 486-504). -/
def build_top3_overall_table (overall_days : List OverallBestDay) : Except Unit String :=
  let headers := ["Date", "Score", "Price", "Airline", "Duration",
    "Layover Hours", "Layover City"]
  let rows := overall_days.map (fun d =>
    [d.date, fmt2 d.score, fmt2 d.price, d.airline, d.duration,
     fmt1 d.layover_hours ++ "h", d.layover_city])
  make_table headers rows (auto_column_widths headers rows 2)
    (some ["left", "right", "right", "left", "left", "right", "left"])

/-- Embedding of `build_top3_overall_section` (processor.py lines 577-588). -/
def build_top3_overall_section (overall_days_raw : List Scored) : Except Unit String :=
  let overall_days := parse_best_overall_days overall_days_raw
  if overall_days = [] then pure "No top-3 overall days available."
  else do
    let table ← build_top3_overall_table overall_days
    pure ("🌍 TOP 3 BEST OVERALL DAYS 🌍\n\n" ++ render_ascii_block table)

/-- `FlightOption` (processor.py lines 10-20). -/
structure FlightOption where
  option_number : ℤ
  airline : String
  price : ℚ
  duration : String
  stops : ℤ
  layover_city : String
  layover_hours : ℚ
  departure : String
  arrival : String
deriving DecidableEq

/-- `DayFlights` (processor.py lines 23-26). -/
structure DayFlights where
  date : String
  options : List FlightOption
deriving DecidableEq

/-- Embedding of `parse_flight_option` (lines 408-419): the raw dicts come
from `extract_flights`, so every key is present and typed. -/
def parse_flight_option (n : ℤ) (raw : Flight) : FlightOption :=
  ⟨n, raw.airline, raw.price, raw.duration, raw.stops, raw.layover_city,
   raw.layover_hours, raw.departure, raw.arrival⟩

/-- Embedding of `parse_day_flights` (lines 422-426): numbered from 1. -/
def parse_day_flights (date : String) (raw_options : List Flight) : DayFlights :=
  ⟨date, (List.enumFrom 1 raw_options).map (fun p => parse_flight_option (p.1 : ℤ) p.2)⟩

/-- Does `l` start with `pat`? -/
def listStartsWith : List Char → List Char → Bool
  | [], _ => true
  | _ :: _, [] => false
  | p :: ps, c :: cs => p = c && listStartsWith ps cs

/-- First component of Python `s.split(sep)`: the characters before the first
occurrence of `sep` (the whole string when `sep` does not occur). -/
def pySplitHead (sep : List Char) : List Char → List Char
  | [] => []
  | c :: rest => if listStartsWith sep (c :: rest) then [] else c :: pySplitHead sep rest

/-- `EXCLUDED_AIRLINES` (processor.py line 55). -/
def EXCLUDED_AIRLINES : List String := ["CX", "AI"]

/-- Does `l` contain `pat` as a contiguous substring (Python `pat in s`)? -/
def containsSub (pat : List Char) : List Char → Bool
  | [] => pat.isEmpty
  | c :: rest => listStartsWith pat (c :: rest) || containsSub pat rest

/-- Embedding of `build_daily_flights_table` (processor.py lines 507-539):
drop options whose airline code (before `" — "`) is excluded, keep the first
10, and render the table under the day's date header. -/
def build_daily_flights_table (day_flights : DayFlights) : Except Unit String := do
  let headers := ["Option", "Airline", "Price", "Duration", "Stops",
    "Layover City", "Layover Hours", "Departure", "Arrival"]
  let filtered := day_flights.options.filter (fun opt =>
    ¬ (⟨pySplitHead [' ', '—', ' '] opt.airline.toList⟩ : String) ∈ EXCLUDED_AIRLINES)
  let options := filtered.take 10
  let rows := options.map (fun opt =>
    [intStr opt.option_number, opt.airline, fmt2 opt.price, opt.duration, intStr opt.stops,
     opt.layover_city, fmt1 opt.layover_hours ++ "h", opt.departure, opt.arrival])
  let table ← make_table headers rows (auto_column_widths headers rows 2)
    (some ["right", "left", "right", "left", "right", "left", "right", "left", "left"])
  pure ("📅 " ++ day_flights.date ++ "\n" ++ table)

/-- The per-day record mapping handed to the report assembler: a Python dict
from date to the day's normalized flight dicts, in insertion order. -/
abbrev Daily := List (String × List Flight)

/-- Python `d[k]` on a dict: `KeyError` when absent. -/
def dictGetE {α : Type} (d : List (String × α)) (k : String) : Except Unit α :=
  match d.lookup k with
  | some v => .ok v
  | none => .error ()

/-- Python whitespace stripped by `str.rstrip()`. -/
def isPySpace (c : Char) : Bool := c = ' ' ∨ c = '\n' ∨ c = '\t' ∨ c = '\r'

/-- Models Python `s.rstrip()`. -/
def pyRstrip (s : String) : String := ⟨(s.toList.reverse.dropWhile isPySpace).reverse⟩

/-- Embedding of `build_daily_sections` (processor.py lines 591-600): one
table per date in ascending date order, a blank line after each, and a final
`rstrip`. -/
def build_daily_sections (daily_raw : Daily) : Except Unit String := do
  let parts ← (pySortedBy (fun k => k) (daily_raw.map Prod.fst)).mapM (fun date => do
    let fs ← dictGetE daily_raw date
    let t ← build_daily_flights_table (parse_day_flights date fs)
    pure [t, ""])
  pure (pyRstrip (pyJoin "\n" parts.flatten))

/-- A row of the Etihad-only table (processor.py lines 645-658). -/
structure EtihadRow where
  date : String
  price : ℚ
  duration : String
  layover_hours : ℚ
deriving DecidableEq

/-- The dash normalization applied to the lowered airline name
(`replace("—", "-").replace("–", "-")`, line 650). -/
def dashFix (c : Char) : Char := if c = '—' ∨ c = '–' then '-' else c

/-- The carrier filter of the Etihad subsection: case-insensitive substring
test for `"etihad"` on the dash-normalized airline name (lines 649-652). -/
def etihadMatches (airline : String) : Bool :=
  containsSub "etihad".toList ((airline.toList.map Char.toLower).map dashFix)

/-- The Etihad rows collected from the per-day mapping, in dict/day order
(processor.py lines 645-658). -/
def etihad_rows (daily_raw : Daily) : List EtihadRow :=
  daily_raw.flatMap (fun p =>
    (p.2.filter (fun f => etihadMatches f.airline)).map
      (fun f => ⟨p.1, f.price, f.duration, f.layover_hours⟩))

/-- The Etihad rows sorted ascending by price (line 665). -/
def etihad_rows_sorted (daily_raw : Daily) : List EtihadRow :=
  pySortedBy (fun r => r.price) (etihad_rows daily_raw)

/-- The Etihad subsection of the full report (processor.py lines 645-688):
a table when any row matched, else the literal no-flights placeholder. -/
def etihad_section (daily_raw : Daily) : Except Unit String :=
  let rows := etihad_rows_sorted daily_raw
  if rows = [] then pure "✈️ ETIHAD AIRWAYS — No flights found for this date range."
  else do
    let headers := ["Date", "Price", "Duration", "Layover"]
    let tableRows := rows.map (fun r =>
      [r.date, fmt2 r.price, r.duration, fmt1 r.layover_hours ++ "h"])
    let table ← make_table headers tableRows (auto_column_widths headers tableRows 2)
      (some ["left", "right", "left", "right"])
    pure ("✈️ ETIHAD AIRWAYS — MARCH 20 TO MARCH 31\n\n" ++ render_ascii_block table)

/-- Embedding of `build_full_report` (processor.py lines 603-702): the four
sections joined with blank lines (the debug `print` is I/O only and has no
effect on the returned string). -/
def build_full_report (best_days_raw : BestDaysRaw) (overall_raw : List Scored)
    (daily_raw : Daily) : Except Unit String := do
  let best_section ← build_best_day_section best_days_raw
  let overall_section ← build_top3_overall_section overall_raw
  let e_section ← etihad_section daily_raw
  let daily_section ← build_daily_sections daily_raw
  pure (pyJoin "\n" [best_section, "", overall_section, "", e_section, "", daily_section])

/-- The spec's carrier-filter example: one Air Canada flight between two
Etihad flights priced 500 and 300. -/
def exampleDailyC8 : Daily :=
  [("d1", [mkFlight "EY — Etihad Airways" 500 "1h" 0,
           mkFlight "AC — Air Canada" 100 "1h" 0,
           mkFlight "EY — Etihad Airways" 300 "1h" 0])]

/-- A parsed `"%Y-%m-%dT%H:%M:%S"` timestamp. -/
structure DateTimeM where
  year : ℕ
  month : ℕ
  day : ℕ
  hour : ℕ
  minute : ℕ
  second : ℕ
deriving DecidableEq

/-- Gregorian leap-year rule (as in Python's `datetime`). -/
def isLeap (y : ℕ) : Bool := (y % 4 = 0 ∧ y % 100 ≠ 0) ∨ y % 400 = 0

/-- Days in a month of a given year. -/
def daysInMonth (y m : ℕ) : ℕ :=
  if m = 2 then (if isLeap y then 29 else 28)
  else if m = 4 ∨ m = 6 ∨ m = 9 ∨ m = 11 then 30 else 31

/-- Split off a prefix of at most `n` decimal digits. -/
def splitDigits : ℕ → List Char → (List Char × List Char)
  | 0, l => ([], l)
  | _ + 1, [] => ([], [])
  | n + 1, c :: rest =>
    if c.isDigit then
      let p := splitDigits n rest
      (c :: p.1, p.2)
    else ([], c :: rest)

/-- Consume one expected literal character. -/
def expectChar (c : Char) : List Char → Option (List Char)
  | [] => none
  | x :: rest => if x = c then some rest else none

/-- Models `datetime.strptime(s, "%Y-%m-%dT%H:%M:%S")` followed by
`datetime`'s own validation: exactly four year digits, one-or-two-digit
month/day/hour/minute/second fields, the literal separators, a fully
consumed string, and the range checks (year ≥ 1, month 1-12, day within the
month, hour ≤ 23, minute/second ≤ 59).  `.error ()` models `ValueError`. -/
def strptimeYmdHMS (s : String) : Except Unit DateTimeM :=
  let p0 := splitDigits 4 s.toList
  if p0.1.length ≠ 4 then .error () else
  match expectChar '-' p0.2 with
  | none => .error ()
  | some l2 =>
  let p1 := splitDigits 2 l2
  if p1.1.isEmpty then .error () else
  match expectChar '-' p1.2 with
  | none => .error ()
  | some l4 =>
  let p2 := splitDigits 2 l4
  if p2.1.isEmpty then .error () else
  match expectChar 'T' p2.2 with
  | none => .error ()
  | some l6 =>
  let p3 := splitDigits 2 l6
  if p3.1.isEmpty then .error () else
  match expectChar ':' p3.2 with
  | none => .error ()
  | some l8 =>
  let p4 := splitDigits 2 l8
  if p4.1.isEmpty then .error () else
  match expectChar ':' p4.2 with
  | none => .error ()
  | some l10 =>
  let p5 := splitDigits 2 l10
  if p5.1.isEmpty then .error () else
  if p5.2 ≠ [] then .error () else
  let y := digitsToNat p0.1
  let mo := digitsToNat p1.1
  let da := digitsToNat p2.1
  let h := digitsToNat p3.1
  let mi := digitsToNat p4.1
  let se := digitsToNat p5.1
  if 1 ≤ y ∧ 1 ≤ mo ∧ mo ≤ 12 ∧ 1 ≤ da ∧ da ≤ daysInMonth y mo ∧
      h ≤ 23 ∧ mi ≤ 59 ∧ se ≤ 59 then
    .ok ⟨y, mo, da, h, mi, se⟩
  else .error ()

/-- Cumulative days before month `m` in year `y`. -/
def daysBeforeMonth (y m : ℕ) : ℕ :=
  ([31, if isLeap y then 29 else 28, 31, 30, 31, 30, 31, 31, 30, 31, 30, 31].take (m - 1)).sum

/-- Proleptic-Gregorian ordinal day of a timestamp (as in `datetime`). -/
def toOrdinal (t : DateTimeM) : ℕ :=
  365 * (t.year - 1) + (t.year - 1) / 4 - (t.year - 1) / 100 + (t.year - 1) / 400
    + daysBeforeMonth t.year t.month + t.day

/-- Seconds since the proleptic epoch; `datetime` subtraction is the
difference of these values. -/
def totalSecondsM (t : DateTimeM) : ℕ :=
  ((toOrdinal t * 24 + t.hour) * 60 + t.minute) * 60 + t.second

/-- Python `round(x, 1)` on exact values: banker's rounding to one decimal. -/
def round1 (q : ℚ) : ℚ := (roundHalfEven (10 * q) : ℚ) / 10

/-- Models Python `s.replace(pat, repl)` (all non-overlapping occurrences,
left to right); structural in a character-count fuel so that it evaluates. -/
def pyReplaceAux (pat repl : List Char) : ℕ → List Char → List Char
  | 0, l => l
  | _ + 1, [] => []
  | fuel + 1, c :: rest =>
    if pat ≠ [] ∧ listStartsWith pat (c :: rest) then
      repl ++ pyReplaceAux pat repl fuel ((c :: rest).drop pat.length)
    else c :: pyReplaceAux pat repl fuel rest

/-- Python `s.replace(pat, repl)` for nonempty `pat`. -/
def pyReplace (pat repl l : List Char) : List Char := pyReplaceAux pat repl l.length l

/-- The display transform of the itinerary duration (processor.py line 236):
`duration_iso.replace("PT", "").lower().replace("h", "h ").replace("m", "m")`. -/
def durationDisplay (iso : String) : String :=
  ⟨pyReplace ['m'] ['m']
    (pyReplace ['h'] ['h', ' ']
      ((pyReplace ['P', 'T'] [] iso.toList).map Char.toLower))⟩

/-- The `"arrival"` object of a raw segment (keys `"at"`, `"iataCode"`);
absent keys model `KeyError`. -/
structure RawArrival where
  atStr : Option String
  iataCode : Option String
deriving DecidableEq

/-- The `"departure"` object of a raw segment (key `"at"`). -/
structure RawDeparture where
  atStr : Option String
deriving DecidableEq

/-- One raw flight segment of the provider payload. -/
structure RawSegment where
  carrierCode : Option String
  departure : Option RawDeparture
  arrival : Option RawArrival
deriving DecidableEq

/-- One raw itinerary. -/
structure RawItinerary where
  duration : Option String
  segments : Option (List RawSegment)
deriving DecidableEq

/-- The `"price"` object of an offer; `total` is a JSON number or numeric
string, modelled by its exact value (`float` conversion is the identity on
the value). -/
structure RawPrice where
  total : Option ℚ
deriving DecidableEq

/-- One raw offer. -/
structure RawOffer where
  itineraries : Option (List RawItinerary)
  price : Option RawPrice
deriving DecidableEq

/-- The raw provider payload (`"data"` key optional). -/
structure RawPayload where
  data : Option (List RawOffer)
deriving DecidableEq

/-- Python dict subscript on an optional field: `KeyError` when absent. -/
def keyE {α : Type} : Option α → Except Unit α
  | some a => .ok a
  | none => .error ()

/-- The `"arrival" -> "at"` chain of a segment. -/
def segArrivalAt (s : RawSegment) : Option String := s.arrival.bind (fun a => a.atStr)

/-- The `"departure" -> "at"` chain of a segment. -/
def segDepartureAt (s : RawSegment) : Option String := s.departure.bind (fun d => d.atStr)

/-- One iteration of the offer loop in `extract_flights` (processor.py lines
214-275).  Any raised exception (`KeyError`, missing price, unparsable
timestamp) makes the surrounding `except` skip this offer, modelled by
`.error ()`; the `continue` guards for missing itineraries or segments are
the same skip. -/
def extract_offer (carrier_lookup : List (String × String)) (offer : RawOffer) :
    Except Unit Flight := do
  let itineraries := offer.itineraries.getD []
  let itin ← match itineraries with
    | [] => .error ()
    | i :: _ => .ok i
  let segments := itin.segments.getD []
  let s0 ← match segments with
    | [] => .error ()
    | s :: _ => .ok s
  let airline_code := s0.carrierCode.getD ""
  let airline_name := (carrier_lookup.lookup airline_code).getD ""
  let airline := if airline_name ≠ "" then airline_code ++ " — " ++ airline_name
    else airline_code
  let priceObj ← keyE offer.price
  let price ← keyE priceObj.total
  let duration := durationDisplay (itin.duration.getD "")
  let stops : ℤ := (segments.length : ℤ) - 1
  let cityHours ←
    match segments with
    | _ :: s1 :: _ => do
      let first_arrival ← keyE (segArrivalAt s0)
      let second_departure ← keyE (segDepartureAt s1)
      let t1 ← strptimeYmdHMS first_arrival
      let t2 ← strptimeYmdHMS second_departure
      let lh := round1 ((((totalSecondsM t2 : ℤ) - (totalSecondsM t1 : ℤ) : ℤ) : ℚ) / 3600)
      let arr0 ← keyE s0.arrival
      let city ← keyE arr0.iataCode
      pure (city, lh)
    | _ => pure ("", (0 : ℚ))
  let departure ← keyE (segDepartureAt s0)
  let lastSeg ← match segments.getLast? with
    | some s => .ok s
    | none => .error ()
  let arrival ← keyE (segArrivalAt lastSeg)
  pure { airline := airline, price := price, duration := duration, stops := stops,
         layover_city := cityHours.1, layover_hours := cityHours.2,
         departure := departure, arrival := arrival }

/-- Embedding of `extract_flights` (processor.py lines 205-277): a falsy or
`"data"`-less payload yields `[]`; otherwise each offer contributes one
normalized record in order, and offers that raise are skipped. -/
def extract_flights (raw : Option RawPayload) (carrier_lookup : List (String × String)) :
    List Flight :=
  match raw with
  | none => []
  | some payload =>
    match payload.data with
    | none => []
    | some offers =>
      offers.foldl (fun acc offer =>
        match extract_offer carrier_lookup offer with
        | .ok f => acc ++ [f]
        | .error _ => acc) []

/-- A price-only counterexample payload: one valid single-segment offer whose
total price is negative. -/
def cexPayload : RawPayload :=
  ⟨some [{ itineraries := some [⟨some "PT8H0M",
             some [{ carrierCode := some "EY"
                     departure := some ⟨some "2026-03-20T01:00:00"⟩
                     arrival := some ⟨some "2026-03-20T09:00:00", some "AUH"⟩ }]⟩]
           price := some ⟨some (-100)⟩ }]⟩


/-- Order hypothesis for the layover computation: whenever the first itinerary
of an offer has at least two segments, the parsed arrival time of the first
segment is no later than the parsed departure time of the second. -/
def segTimesOrdered (o : RawOffer) : Prop :=
  ∀ itin rest, o.itineraries.getD [] = itin :: rest →
    ∀ s0 s1 srest, itin.segments.getD [] = s0 :: s1 :: srest →
      ∀ a1 a2 t1 t2, segArrivalAt s0 = some a1 → segDepartureAt s1 = some a2 →
        strptimeYmdHMS a1 = .ok t1 → strptimeYmdHMS a2 = .ok t2 →
        totalSecondsM t1 ≤ totalSecondsM t2

/-- A well-formed payload: one single-segment offer with a non-negative price. -/
def okPayload : RawPayload :=
  ⟨some [{ itineraries := some [⟨some "PT8H30M",
             some [{ carrierCode := some "EY"
                     departure := some ⟨some "2026-03-20T01:00:00"⟩
                     arrival := some ⟨some "2026-03-20T09:30:00", some "AUH"⟩ }]⟩]
           price := some ⟨some 450⟩ }]⟩

-- ===================== THEOREMS =====================

/-- Every character produced by `natDigits` is some decimal digit. -/
theorem natDigits_mem (n : ℕ) : ∀ c ∈ natDigits n, ∃ d, d < 10 ∧ c = Nat.digitChar d := by
  induction n using Nat.strong_induction_on with
  | _ n ih =>
    rw [natDigits]
    by_cases h : n < 10
    · simp only [if_pos h, List.mem_singleton]
      rintro c rfl
      exact ⟨n, h, rfl⟩
    · simp only [if_neg h, List.mem_append, List.mem_singleton]
      rintro c (hc | rfl)
      · exact ih (n / 10) (Nat.div_lt_self (by omega) (by norm_num)) c hc
      · exact ⟨n % 10, Nat.mod_lt _ (by norm_num), rfl⟩

/-- A decimal digit character survives `Char.toLower` and is none of the
separator characters used by the duration syntax. -/
theorem digitChar_props (d : ℕ) (hd : d < 10) :
    (Nat.digitChar d).toLower = Nat.digitChar d ∧
    (Nat.digitChar d).isDigit = true ∧
    (Nat.digitChar d).toNat = 48 + d ∧
    Nat.digitChar d ≠ ' ' ∧ Nat.digitChar d ≠ 'h' ∧ Nat.digitChar d ≠ 'm' ∧
    Nat.digitChar d ≠ '-' ∧ Nat.digitChar d ≠ '+' := by
  interval_cases d <;> exact ⟨rfl, rfl, rfl, by decide, by decide, by decide, by decide, by decide⟩

/-- `natDigits` is never empty. -/
theorem natDigits_ne_nil (n : ℕ) : natDigits n ≠ [] := by
  rw [natDigits]
  by_cases h : n < 10 <;> simp [h]

/-- Appending one digit multiplies the accumulated value by ten. -/
theorem digitsToNat_append (l : List Char) (c : Char) :
    digitsToNat (l ++ [c]) = 10 * digitsToNat l + (c.toNat - 48) := by
  simp [digitsToNat, List.foldl_append]

/-- Characters of `natDigits` in bundled form. -/
theorem natDigits_facts (n : ℕ) : ∀ c ∈ natDigits n,
    c.toLower = c ∧ c.isDigit = true ∧ c ≠ ' ' ∧ c ≠ 'h' ∧ c ≠ 'm' := by
  intro c hc
  obtain ⟨d, hd, rfl⟩ := natDigits_mem n c hc
  have h := digitChar_props d hd
  exact ⟨h.1, h.2.1, h.2.2.2.1, h.2.2.2.2.1, h.2.2.2.2.2.1⟩

/-- A list whose head block all satisfies `p` contributes itself to
`takeWhile`. -/
theorem takeWhile_all_append (p : Char → Bool) (l1 l2 : List Char)
    (h : ∀ a ∈ l1, p a = true) :
    (l1 ++ l2).takeWhile p = l1 ++ l2.takeWhile p := by
  induction l1 with
  | nil => rfl
  | cons a l ih =>
    have ha := h a (List.mem_cons_self a l)
    have hrest : ∀ x ∈ l, p x = true := fun x hx => h x (List.mem_cons_of_mem a hx)
    simp [List.takeWhile_cons, ha, ih hrest]

/-- A list whose head block all satisfies `p` is skipped by `dropWhile`. -/
theorem dropWhile_all_append (p : Char → Bool) (l1 l2 : List Char)
    (h : ∀ a ∈ l1, p a = true) :
    (l1 ++ l2).dropWhile p = l2.dropWhile p := by
  induction l1 with
  | nil => rfl
  | cons a l ih =>
    have ha := h a (List.mem_cons_self a l)
    have hrest : ∀ x ∈ l, p x = true := fun x hx => h x (List.mem_cons_of_mem a hx)
    simp [List.dropWhile_cons, ha, ih hrest]

/-- `takeWhile` keeps a list all of whose elements satisfy `p`. -/
theorem takeWhile_all (p : Char → Bool) (l : List Char) (h : ∀ a ∈ l, p a = true) :
    l.takeWhile p = l := by
  have := takeWhile_all_append p l [] h
  simpa using this

/-- Reading back the decimal digits of `n` recovers `n`. -/
theorem digitsToNat_natDigits (n : ℕ) : digitsToNat (natDigits n) = n := by
  induction n using Nat.strong_induction_on with
  | _ n ih =>
    rw [natDigits]
    by_cases h : n < 10
    · simp only [if_pos h]
      simp [digitsToNat, (digitChar_props n h).2.2.1]
    · simp only [if_neg h]
      rw [digitsToNat_append, ih (n / 10) (Nat.div_lt_self (by omega) (by norm_num)),
        (digitChar_props (n % 10) (Nat.mod_lt _ (by norm_num))).2.2.1]
      omega

/-- Python `int()` applied to the canonical digit rendering of `n` gives `n`. -/
theorem pyInt_natDigits (n : ℕ) : pyInt (natDigits n) = .ok (n : ℤ) := by
  obtain ⟨c, cs, hcons⟩ : ∃ c cs, natDigits n = c :: cs := by
    cases h : natDigits n with
    | nil => exact absurd h (natDigits_ne_nil n)
    | cons c cs => exact ⟨c, cs, rfl⟩
  have hc : c ∈ natDigits n := by rw [hcons]; exact List.mem_cons_self _ _
  obtain ⟨d, hd, hcd⟩ := natDigits_mem n c hc
  have hp := digitChar_props d hd
  have hall : (c :: cs).all Char.isDigit = true := by
    rw [← hcons]
    rw [List.all_eq_true]
    intro a ha
    exact (natDigits_facts n a ha).2.1
  rw [hcons, pyInt]
  rw [if_neg (by rw [hcd]; exact hp.2.2.2.2.2.2.1)]
  rw [if_neg (by rw [hcd]; exact hp.2.2.2.2.2.2.2)]
  rw [digitsVal, if_neg (by simp), if_pos hall]
  rw [← hcons, digitsToNat_natDigits]
  rfl

/-- The lowercase-and-despace preprocessing acts as the identity on digit
blocks and unit letters. -/
theorem parts0_renderDuration (h m : ℕ) :
    ((renderDuration h m).toList.map Char.toLower).filter (fun c => decide (c ≠ ' '))
      = natDigits h ++ 'h' :: (natDigits m ++ ['m']) := by
  have mapid : ∀ k : ℕ, (natDigits k).map Char.toLower = natDigits k := fun k => by
    rw [List.map_congr_left (g := id) (fun a ha => (natDigits_facts k a ha).1), List.map_id]
  have filtid : ∀ k : ℕ,
      (natDigits k).filter (fun c => decide (c ≠ ' ')) = natDigits k := fun k =>
    List.filter_eq_self.mpr (fun a ha => by simp [(natDigits_facts k a ha).2.2.1])
  show ((natDigits h ++ 'h' :: ' ' :: (natDigits m ++ ['m'])).map Char.toLower).filter _ = _
  rw [List.map_append, List.map_cons, List.map_cons, List.map_append, mapid, mapid,
    List.map_cons, List.map_nil]
  rw [show ('h').toLower = 'h' from rfl, show (' ').toLower = ' ' from rfl,
    show ('m').toLower = 'm' from rfl]
  rw [List.filter_append, filtid]
  congr 1
  rw [List.filter_cons, List.filter_cons, List.filter_append, filtid]
  simp

/-- Evaluating the duration parser on the canonical rendering. -/
theorem parse_renderDuration (h m : ℕ) :
    parse_duration_to_minutes (renderDuration h m) = .ok ((h : ℤ) * 60 + (m : ℤ)) := by
  have hne : ∀ k : ℕ, (natDigits k).isEmpty = false := fun k => by
    simp [List.isEmpty_eq_false, natDigits_ne_nil]
  have hnoth : ∀ a ∈ natDigits h, (decide (a ≠ 'h')) = true := fun a ha => by
    simp [(natDigits_facts h a ha).2.2.2.1]
  have mnoth : ∀ a ∈ natDigits m ++ ['m'], (decide (a ≠ 'h')) = true := fun a ha => by
    rcases List.mem_append.mp ha with hm | hm
    · simp [(natDigits_facts m a hm).2.2.2.1]
    · simp at hm
      simp [hm]
  have mnotm : ∀ a ∈ natDigits m, (decide (a ≠ 'm')) = true := fun a ha => by
    simp [(natDigits_facts m a ha).2.2.2.2]
  simp only [parse_duration_to_minutes, parts0_renderDuration]
  rw [if_pos (show 'h' ∈ natDigits h ++ 'h' :: (natDigits m ++ ['m']) by
    exact List.mem_append.mpr (Or.inr (List.mem_cons_self _ _)))]
  rw [takeWhile_all_append _ _ _ hnoth, dropWhile_all_append _ _ _ hnoth]
  rw [List.takeWhile_cons, List.dropWhile_cons]
  rw [show (decide ('h' ≠ 'h')) = false from rfl]
  simp only [Bool.false_eq_true, if_false, List.append_nil, List.tail_cons]
  rw [takeWhile_all _ _ mnoth]
  rw [show (natDigits h).isEmpty = false from by simp [List.isEmpty_eq_false, natDigits_ne_nil]]
  simp only [Bool.false_eq_true, if_false]
  rw [pyInt_natDigits]
  simp only [Except.map]
  rw [if_pos (show 'm' ∈ natDigits m ++ ['m'] from
    List.mem_append.mpr (Or.inr (List.mem_cons_self _ _)))]
  rw [takeWhile_all_append _ _ _ mnotm, List.takeWhile_cons]
  rw [show (decide ('m' ≠ 'm')) = false from rfl]
  simp only [Bool.false_eq_true, if_false, List.append_nil]
  rw [show (natDigits m).isEmpty = false from by simp [List.isEmpty_eq_false, natDigits_ne_nil]]
  simp only [Bool.false_eq_true, if_false]
  rw [pyInt_natDigits]

/-- Preprocessing of the hours-only rendering. -/
theorem parts0_renderHours (h : ℕ) :
    ((renderHours h).toList.map Char.toLower).filter (fun c => decide (c ≠ ' '))
      = natDigits h ++ ['h'] := by
  have mapid : (natDigits h).map Char.toLower = natDigits h := by
    rw [List.map_congr_left (g := id) (fun a ha => (natDigits_facts h a ha).1), List.map_id]
  have filtid : (natDigits h).filter (fun c => decide (c ≠ ' ')) = natDigits h :=
    List.filter_eq_self.mpr (fun a ha => by simp [(natDigits_facts h a ha).2.2.1])
  show ((natDigits h ++ ['h']).map Char.toLower).filter _ = _
  rw [List.map_append, mapid, List.map_cons, List.map_nil,
    show ('h').toLower = 'h' from rfl]
  rw [List.filter_append, filtid]
  simp

/-- Preprocessing of the minutes-only rendering. -/
theorem parts0_renderMinutes (m : ℕ) :
    ((renderMinutes m).toList.map Char.toLower).filter (fun c => decide (c ≠ ' '))
      = natDigits m ++ ['m'] := by
  have mapid : (natDigits m).map Char.toLower = natDigits m := by
    rw [List.map_congr_left (g := id) (fun a ha => (natDigits_facts m a ha).1), List.map_id]
  have filtid : (natDigits m).filter (fun c => decide (c ≠ ' ')) = natDigits m :=
    List.filter_eq_self.mpr (fun a ha => by simp [(natDigits_facts m a ha).2.2.1])
  show ((natDigits m ++ ['m']).map Char.toLower).filter _ = _
  rw [List.map_append, mapid, List.map_cons, List.map_nil,
    show ('m').toLower = 'm' from rfl]
  rw [List.filter_append, filtid]
  simp

/-- Evaluating the duration parser on an hours-only rendering. -/
theorem parse_renderHours (h : ℕ) :
    parse_duration_to_minutes (renderHours h) = .ok ((h : ℤ) * 60) := by
  have hnoth : ∀ a ∈ natDigits h, (decide (a ≠ 'h')) = true := fun a ha => by
    simp [(natDigits_facts h a ha).2.2.2.1]
  simp only [parse_duration_to_minutes, parts0_renderHours]
  rw [if_pos (show 'h' ∈ natDigits h ++ ['h'] from
    List.mem_append.mpr (Or.inr (List.mem_cons_self _ _)))]
  rw [takeWhile_all_append _ _ _ hnoth, dropWhile_all_append _ _ _ hnoth]
  rw [List.takeWhile_cons, List.dropWhile_cons]
  rw [show (decide ('h' ≠ 'h')) = false from rfl]
  simp only [Bool.false_eq_true, if_false, List.append_nil, List.tail_cons,
    List.takeWhile_nil]
  rw [show (natDigits h).isEmpty = false from by
    simp [List.isEmpty_eq_false, natDigits_ne_nil]]
  simp only [Bool.false_eq_true, if_false]
  rw [pyInt_natDigits]
  simp [Except.map]

/-- Evaluating the duration parser on a minutes-only rendering. -/
theorem parse_renderMinutes (m : ℕ) :
    parse_duration_to_minutes (renderMinutes m) = .ok ((m : ℤ)) := by
  have mnotm : ∀ a ∈ natDigits m, (decide (a ≠ 'm')) = true := fun a ha => by
    simp [(natDigits_facts m a ha).2.2.2.2]
  have noh : ¬ ('h' ∈ natDigits m ++ ['m']) := by
    intro hmem
    rcases List.mem_append.mp hmem with hc | hc
    · exact (natDigits_facts m 'h' hc).2.2.2.1 rfl
    · simp at hc
  simp only [parse_duration_to_minutes, parts0_renderMinutes]
  rw [if_neg noh]
  dsimp only
  rw [if_pos (show 'm' ∈ natDigits m ++ ['m'] from
    List.mem_append.mpr (Or.inr (List.mem_cons_self _ _)))]
  rw [takeWhile_all_append _ _ _ mnotm, List.takeWhile_cons]
  rw [show (decide ('m' ≠ 'm')) = false from rfl]
  simp only [Bool.false_eq_true, if_false, List.append_nil]
  rw [show (natDigits m).isEmpty = false from by
    simp [List.isEmpty_eq_false, natDigits_ne_nil]]
  simp only [Bool.false_eq_true, if_false]
  rw [pyInt_natDigits]
  simp

/-- C5: for all `h` and `0 ≤ m < 60`, parsing the rendered duration string
`"<h>h <m>m"` with `parse_duration_to_minutes` returns exactly `h*60 + m`,
and a rendering with a missing unit contributes zero for that unit
(`"<h>h"` gives `h*60`, `"<m>m"` gives `m`). -/
theorem duration_roundtrip_spec :
    (∀ h m : ℕ, m < 60 →
      parse_duration_to_minutes (renderDuration h m) = .ok ((h : ℤ) * 60 + (m : ℤ))) ∧
    (∀ h : ℕ, parse_duration_to_minutes (renderHours h) = .ok ((h : ℤ) * 60)) ∧
    (∀ m : ℕ, parse_duration_to_minutes (renderMinutes m) = .ok ((m : ℤ))) :=
  ⟨fun h m _ => parse_renderDuration h m, parse_renderHours, parse_renderMinutes⟩

/-- Witness for C5 at the spec's example `"17h 50m"`. -/
theorem duration_roundtrip_spec_witness :
    parse_duration_to_minutes (renderDuration 17 50) = .ok 1070 := by
  have h := duration_roundtrip_spec.1 17 50 (by norm_num)
  simpa using h

/-- Length of a string built from an explicit character list. -/
theorem strLen_mk (l : List Char) : (String.mk l).length = l.length := rfl

/-- Binding a successful `Except` computation applies the continuation. -/
theorem ok_bind {α β : Type} (a : α) (f : α → Except Unit β) :
    (Except.ok a >>= f) = f a := rfl

/-- Binding a failed `Except` computation propagates the failure. -/
theorem error_bind {α β : Type} (f : α → Except Unit β) :
    ((Except.error () : Except Unit α) >>= f) = .error () := rfl

/-- `pure` for `Except` is `ok`. -/
theorem pure_eq_ok {α : Type} (a : α) : (pure a : Except Unit α) = .ok a := rfl

/-- Length of a Python join: the cell lengths plus one separator between
each adjacent pair. -/
theorem pyJoin_length (sep : String) (ls : List String) :
    (pyJoin sep ls).length = (ls.map String.length).sum + sep.length * (ls.length - 1) := by
  induction ls with
  | nil => simp [pyJoin]
  | cons s ss ih =>
    cases ss with
    | nil => simp [pyJoin]
    | cons t ts =>
      show (s ++ sep ++ pyJoin sep (t :: ts)).length = _
      rw [String.length_append, String.length_append, ih]
      simp only [List.map_cons, List.sum_cons, List.length_cons, Nat.add_sub_cancel]
      ring

/-- Padding a cell always produces a string of exactly the column width. -/
theorem pad_length (text : String) (width : ℕ) (align : String) :
    (pad text width align).length = width := by
  have ht : text.toList.length = text.length := rfl
  simp only [pad]
  split_ifs with h1 h2 h3 h4 <;>
    simp_all [strLen_mk, List.length_take, List.length_append, List.length_replicate] <;>
    omega

/-- Indexing inside the list bounds succeeds with the indexed element. -/
theorem getE_lt {α : Type} (l : List α) (i : ℕ) (h : i < l.length) :
    getE l i = .ok (l.get ⟨i, h⟩) := by
  simp [getE, List.getElem?_eq_getElem h, List.get_eq_getElem]

/-- Padding a row whose indices stay inside the width and alignment lists
succeeds, and the padded cell lengths are the corresponding widths. -/
theorem padCells_ok (widths : List ℕ) (aligns : List String) :
    ∀ (row : List String) (k : ℕ), k + row.length ≤ widths.length →
      k + row.length ≤ aligns.length →
      ∃ padded, padCells widths aligns k row = .ok padded ∧
        padded.map String.length = (widths.drop k).take row.length := by
  intro row
  induction row with
  | nil => exact fun k _ _ => ⟨[], rfl, by simp⟩
  | cons c cs ih =>
    intro k hw ha
    have hkw : k < widths.length := by simp only [List.length_cons] at hw; omega
    have hka : k < aligns.length := by simp only [List.length_cons] at ha; omega
    obtain ⟨padded, hp, hlen⟩ := ih (k + 1)
      (by simp only [List.length_cons] at hw ⊢; omega)
      (by simp only [List.length_cons] at ha ⊢; omega)
    refine ⟨pad c (widths.get ⟨k, hkw⟩) (aligns.get ⟨k, hka⟩) :: padded, ?_, ?_⟩
    · simp only [padCells, getE_lt widths k hkw, getE_lt aligns k hka, hp, ok_bind, pure_eq_ok]
    · rw [List.map_cons, hlen, pad_length]
      have hdk : widths.drop k = widths.get ⟨k, hkw⟩ :: widths.drop (k + 1) := by
        rw [List.get_eq_getElem]
        exact (List.getElem_cons_drop widths k hkw).symm
      rw [hdk, List.length_cons, List.take_succ_cons]

/-- A row staying inside the width and alignment lists formats successfully,
with a line length determined by the widths it uses. -/
theorem format_row_ok (widths : List ℕ) (aligns : List String) (row : List String)
    (hw : row.length ≤ widths.length) (ha : row.length ≤ aligns.length) :
    ∃ s, format_row widths aligns row = .ok s ∧
      s.length = 4 + ((widths.take row.length).sum + 3 * (row.length - 1)) := by
  obtain ⟨padded, hp, hlen⟩ := padCells_ok widths aligns row 0 (by omega) (by omega)
  refine ⟨"| " ++ pyJoin " | " padded ++ " |", ?_, ?_⟩
  · simp [format_row, hp, Except.map]
  · have hplen : padded.length = row.length := by
      have h := congrArg List.length hlen
      rw [List.length_map, List.length_take, List.length_drop] at h
      omega
    rw [String.length_append, String.length_append, pyJoin_length, hlen, hplen]
    rw [List.drop_zero]
    have h2 : ("| " : String).length = 2 := rfl
    have h3 : (" | " : String).length = 3 := rfl
    have h4 : (" |" : String).length = 2 := rfl
    rw [h2, h3, h4]
    omega

/-- Length of the border line of a table. -/
theorem tableBorder_length (widths : List ℕ) :
    (tableBorder widths).length = 4 + (widths.sum + 3 * (widths.length - 1)) := by
  rw [tableBorder, String.length_append, String.length_append, pyJoin_length]
  have hm : ((widths.map (fun w => (⟨List.replicate w '-'⟩ : String))).map String.length)
      = widths := by
    rw [List.map_map]
    have : ∀ w ∈ widths, (String.length ∘ fun w => (⟨List.replicate w '-'⟩ : String)) w = id w := by
      intro w _
      simp [strLen_mk, List.length_replicate]
    rw [List.map_congr_left this, List.map_id]
  rw [hm, List.length_map]
  have h2 : ("+-" : String).length = 2 := rfl
  have h3 : ("-+-" : String).length = 3 := rfl
  have h4 : ("-+" : String).length = 2 := rfl
  rw [h2, h3, h4]
  omega

/-- `auto_column_widths` always produces one width per header. -/
theorem auto_column_widths_length (headers : List String) (rows : List (List String))
    (padding : ℕ) :
    (auto_column_widths headers rows padding).length = headers.length := by
  rw [auto_column_widths]
  simp only [List.length_map]
  have aux : ∀ (rs : List (List String)) (acc : List ℕ),
      (rs.foldl (fun acc row => acc.mapIdx (fun i m =>
        match row.get? i with
        | some c => max m c.length
        | none => m)) acc).length = acc.length := by
    intro rs
    induction rs with
    | nil => intro acc; rfl
    | cons r rs ih =>
      intro acc
      rw [List.foldl_cons, ih, List.length_mapIdx]
  rw [aux, List.length_map]

/-- `mapM` over `Except` preserves length on success. -/
theorem mapM_ok_length {α β : Type} (f : α → Except Unit β) :
    ∀ (l : List α) (l' : List β), l.mapM f = .ok l' → l'.length = l.length := by
  intro l
  induction l with
  | nil =>
    intro l' h
    simp only [List.mapM_nil, pure_eq_ok] at h
    cases h
    rfl
  | cons a l ih =>
    intro l' h
    rw [List.mapM_cons] at h
    cases hf : f a with
    | error e => rw [hf] at h; cases e; rw [error_bind] at h; cases h
    | ok b =>
      rw [hf, ok_bind] at h
      cases hm : l.mapM f with
      | error e => rw [hm] at h; cases e; rw [error_bind] at h; cases h
      | ok bs =>
        rw [hm, ok_bind, pure_eq_ok] at h
        cases h
        simp [ih bs hm]

/-- Formatting a batch of rows that stay inside the width and alignment
lists succeeds. -/
theorem mapM_format_row_le (widths : List ℕ) (aligns : List String) :
    ∀ (rows : List (List String)),
      (∀ row ∈ rows, row.length ≤ widths.length ∧ row.length ≤ aligns.length) →
      ∃ ls, rows.mapM (format_row widths aligns) = .ok ls := by
  intro rows
  induction rows with
  | nil => exact fun _ => ⟨[], rfl⟩
  | cons r rs ih =>
    intro hr
    obtain ⟨s, hs, _⟩ := format_row_ok widths aligns r
      (hr r (List.mem_cons_self _ _)).1 (hr r (List.mem_cons_self _ _)).2
    obtain ⟨ls, hls⟩ := ih (fun row hrow => hr row (List.mem_cons_of_mem r hrow))
    exact ⟨s :: ls, by rw [List.mapM_cons, hs, ok_bind, hls, ok_bind, pure_eq_ok]⟩

/-- Formatting a batch of rows of exactly the table arity succeeds, and every
produced line has the full-width length. -/
theorem mapM_format_row_exact (widths : List ℕ) (aligns : List String)
    (hwa : widths.length ≤ aligns.length) :
    ∀ (rows : List (List String)),
      (∀ row ∈ rows, row.length = widths.length) →
      ∃ ls, rows.mapM (format_row widths aligns) = .ok ls ∧
        ∀ s ∈ ls, s.length = 4 + (widths.sum + 3 * (widths.length - 1)) := by
  intro rows
  induction rows with
  | nil => exact fun _ => ⟨[], rfl, by simp⟩
  | cons r rs ih =>
    intro hr
    have hlen := hr r (List.mem_cons_self _ _)
    obtain ⟨s, hs, hslen⟩ := format_row_ok widths aligns r (le_of_eq hlen)
      (hlen.trans_le hwa)
    obtain ⟨ls, hls, hall⟩ := ih (fun row hrow => hr row (List.mem_cons_of_mem r hrow))
    refine ⟨s :: ls, by rw [List.mapM_cons, hs, ok_bind, hls, ok_bind, pure_eq_ok], ?_⟩
    intro x hx
    rcases List.mem_cons.mp hx with rfl | hx
    · rw [hslen, hlen, List.take_length]
    · exact hall x hx

/-- Successful runs of the `make_table` body emit `rows + 4` lines. -/
theorem table_lines_bind_length (widths : List ℕ) (aligns : List String)
    (headers : List String) (rows : List (List String)) (ls : List String)
    (h : (format_row widths aligns headers >>= fun headerRow =>
          rows.mapM (format_row widths aligns) >>= fun dataRows =>
          pure ([tableBorder widths, headerRow, tableBorder widths] ++ dataRows
            ++ [tableBorder widths]))
        = Except.ok ls) :
    ls.length = rows.length + 4 := by
  cases hh : format_row widths aligns headers with
  | error e => cases e; rw [hh, error_bind] at h; cases h
  | ok hr =>
    rw [hh, ok_bind] at h
    cases hm : rows.mapM (format_row widths aligns) with
    | error e => cases e; rw [hm, error_bind] at h; cases h
    | ok ds =>
      rw [hm, ok_bind, pure_eq_ok] at h
      cases h
      have := mapM_ok_length _ rows ds hm
      simp [this]

/-- C6 (amended): `make_table` always emits `rows + 4` lines (three borders
plus the header line) whenever it succeeds; and when every row has exactly as
many cells as there are headers, all emitted lines have equal length under
auto-computed widths.  (Rows with fewer cells than headers are NOT padded
with empty cells by the code: their cells are simply omitted, so such lines
come out shorter — see the counterexample theorem.) -/
theorem make_table_shape :
    (∀ (headers : List String) (rows : List (List String)) (widths : List ℕ)
        (aligns0 : Option (List String)) (ls : List String),
        make_table_lines headers rows widths aligns0 = .ok ls →
        ls.length = rows.length + 4) ∧
    (∀ (headers : List String) (rows : List (List String)), rows ≠ [] →
        (∀ row ∈ rows, row.length = headers.length) →
        ∃ ls, make_table_lines headers rows (auto_column_widths headers rows 2) none = .ok ls ∧
          ls.length = rows.length + 4 ∧
          ∀ a ∈ ls, ∀ b ∈ ls, a.length = b.length) := by
  constructor
  · intro headers rows widths aligns0 ls h
    cases aligns0 with
    | none =>
      simp only [make_table_lines] at h
      exact table_lines_bind_length widths _ headers rows ls h
    | some a =>
      simp only [make_table_lines] at h
      exact table_lines_bind_length widths a headers rows ls h
  · intro headers rows _ harity
    set widths := auto_column_widths headers rows 2 with hwdef
    have hwlen : widths.length = headers.length := auto_column_widths_length headers rows 2
    have halen : (List.replicate headers.length "left").length = headers.length :=
      List.length_replicate _ _
    obtain ⟨hs, hhs, hhslen⟩ := format_row_ok widths (List.replicate headers.length "left")
      headers (le_of_eq hwlen.symm) (le_of_eq halen.symm)
    obtain ⟨ds, hds, hdlen⟩ := mapM_format_row_exact widths
      (List.replicate headers.length "left") (by omega)
      rows (fun row hrow => (harity row hrow).trans hwlen.symm)
    refine ⟨[tableBorder widths, hs, tableBorder widths] ++ ds ++ [tableBorder widths], ?_, ?_, ?_⟩
    · simp only [make_table_lines, hhs, ok_bind, hds, pure_eq_ok]
    · have := mapM_ok_length _ rows ds hds
      simp [this]
    · have hL : ∀ a ∈ [tableBorder widths, hs, tableBorder widths] ++ ds ++ [tableBorder widths],
          a.length = 4 + (widths.sum + 3 * (widths.length - 1)) := by
        intro a ha
        simp only [List.mem_append, List.mem_cons, List.mem_singleton,
          List.not_mem_nil, or_false] at ha
        rcases ha with ((rfl | rfl | rfl) | ha) | rfl
        · exact tableBorder_length widths
        · rw [hhslen, hwlen, ← hwlen, List.take_length]
        · exact tableBorder_length widths
        · exact hdlen a ha
        · exact tableBorder_length widths
      intro a ha b hb
      rw [hL a ha, hL b hb]

/-- C6 counterexample: with headers `["A", "B"]` and the single short row
`["x"]` (fewer cells than headers), the rendered lines do NOT all have the
same length — the data line is shorter because missing cells are omitted,
not rendered as empty cells. -/
theorem make_table_equal_length_counterexample :
    ¬ (∀ ls, make_table_lines ["A", "B"] [["x"]]
          (auto_column_widths ["A", "B"] [["x"]] 2) none = .ok ls →
        ∀ a ∈ ls, ∀ b ∈ ls, a.length = b.length) := by
  intro hcl
  have h := hcl ["+-----+-----+", "| A   | B   |", "+-----+-----+", "| x   |", "+-----+-----+"]
    (by decide)
  have h2 := h "+-----+-----+" (by decide) "| x   |" (by decide)
  exact absurd h2 (by decide)

/-- Witness for C6 at a concrete single-row table. -/
theorem make_table_shape_witness :
    ∃ ls, make_table_lines ["A"] [["x"]] (auto_column_widths ["A"] [["x"]] 2) none = .ok ls ∧
      ls.length = [["x"]].length + 4 ∧
      ∀ a ∈ ls, ∀ b ∈ ls, a.length = b.length :=
  make_table_shape.2 ["A"] [["x"]] (by decide) (by decide)

/-- C10: if every row has at most as many cells as there are headers, every
index access inside `make_table` (with auto-computed widths and default
alignments) is in bounds and the rendering succeeds; and the precondition is
necessary — a row with more cells than headers makes the width lookup raise
`IndexError`. -/
theorem make_table_index_safety :
    (∀ (headers : List String) (rows : List (List String)),
        (∀ row ∈ rows, row.length ≤ headers.length) →
        ∃ s, make_table headers rows (auto_column_widths headers rows 2) none = .ok s) ∧
    make_table ["A"] [["x", "y"]] (auto_column_widths ["A"] [["x", "y"]] 2) none = .error () := by
  constructor
  · intro headers rows harity
    set widths := auto_column_widths headers rows 2 with hwdef
    have hwlen : widths.length = headers.length := auto_column_widths_length headers rows 2
    have halen : (List.replicate headers.length "left").length = headers.length :=
      List.length_replicate _ _
    obtain ⟨hs, hhs, _⟩ := format_row_ok widths (List.replicate headers.length "left")
      headers (le_of_eq hwlen.symm) (le_of_eq halen.symm)
    obtain ⟨ds, hds⟩ := mapM_format_row_le widths (List.replicate headers.length "left")
      rows (fun row hrow => ⟨(harity row hrow).trans (le_of_eq hwlen.symm),
        (harity row hrow).trans (le_of_eq halen.symm)⟩)
    refine ⟨pyJoin "\n" ([tableBorder widths, hs, tableBorder widths] ++ ds ++ [tableBorder widths]), ?_⟩
    simp only [make_table, make_table_lines, hhs, ok_bind, hds, pure_eq_ok, Except.map]
  · decide

/-- Witness for C10 at a concrete in-bounds table. -/
theorem make_table_index_safety_witness :
    ∃ s, make_table ["A"] [["x"]] (auto_column_widths ["A"] [["x"]] 2) none = .ok s :=
  make_table_index_safety.1 ["A"] [["x"]] (by decide)

/-- Overwriting a key then looking it up yields the new value. -/
theorem lookup_dictSet (k : String) (v : ℚ) (h : History) :
    (dictSet k v h).lookup k = some v := by
  induction h with
  | nil => simp [dictSet, List.lookup]
  | cons p rest ih =>
    obtain ⟨k', v'⟩ := p
    by_cases hk : k' = k
    · simp [dictSet, hk, List.lookup]
    · simp only [dictSet, if_neg hk, List.lookup]
      have hbeq : (k == k') = false := by simp [Ne.symm hk]
      rw [hbeq]
      exact ih

/-- A string starting with a nonempty literal is not the empty string. -/
theorem append_ne_empty_left (a b : String) (ha : a.length ≠ 0) : a ++ b ≠ "" := by
  intro h
  have hlen := congrArg String.length h
  rw [String.length_append] at hlen
  have h0 : ("" : String).length = 0 := rfl
  rw [h0] at hlen
  omega

/-- C3: `detect_price_drop` overwrites the stored price for the date with the
current price and persists the result, and returns a (non-empty) drop message
exactly when a previous price was stored for that date and the current price
is strictly below it; it returns no message on first observation and on a
price rise or equality. -/
theorem detect_price_drop_spec (io : FileIO) (date_str : String) (current_price : ℚ)
    (hw : io.writeOk = true) :
    ∃ h' msg, detect_price_drop io date_str current_price = .ok (h', msg) ∧
      h' = dictSet date_str current_price (load_price_history io) ∧
      h'.lookup date_str = some current_price ∧
      (msg.isSome ↔ ∃ prev, (load_price_history io).lookup date_str = some prev ∧
        current_price < prev) ∧
      (∀ s, msg = some s → s ≠ "") := by
  have hsave : save_price_history io (dictSet date_str current_price (load_price_history io))
      = .ok () := by
    simp [save_price_history, hw]
  cases hl : (load_price_history io).lookup date_str with
  | none =>
    refine ⟨dictSet date_str current_price (load_price_history io), none, ?_, rfl,
      lookup_dictSet _ _ _, ?_, ?_⟩
    · simp only [detect_price_drop, hl, hsave, ok_bind, pure_eq_ok]
    · simp [hl]
    · intro s hs
      cases hs
  | some prev =>
    by_cases hlt : current_price < prev
    · refine ⟨dictSet date_str current_price (load_price_history io),
        some ("🔥 Price drop on " ++ date_str ++ ": was $" ++ fmt2 prev
          ++ ", now $" ++ fmt2 current_price ++ " (↓ $" ++ fmt2 (prev - current_price) ++ ")"),
        ?_, rfl, lookup_dictSet _ _ _, ?_, ?_⟩
      · simp only [detect_price_drop, hl, hsave, ok_bind, if_pos hlt, pure_eq_ok]
      · simp [hl, hlt]
      · intro s hs
        cases hs
        apply append_ne_empty_left
        rw [String.length_append, String.length_append, String.length_append,
          String.length_append, String.length_append, String.length_append,
          String.length_append]
        have h16 : ("🔥 Price drop on " : String).length = 16 := by decide
        omega
    · refine ⟨dictSet date_str current_price (load_price_history io), none, ?_, rfl,
        lookup_dictSet _ _ _, ?_, ?_⟩
      · simp only [detect_price_drop, hl, hsave, ok_bind, if_neg hlt, pure_eq_ok]
      · simp [hl, hlt]
      · intro s hs
        cases hs

/-- Witness for C3: a second observation at a lower price yields a message. -/
theorem detect_price_drop_spec_witness :
    ∃ h' msg,
      detect_price_drop ⟨true, .ok [("2026-03-20", 10)], true⟩ "2026-03-20" 5 = .ok (h', msg) ∧
      h' = dictSet "2026-03-20" 5 (load_price_history ⟨true, .ok [("2026-03-20", 10)], true⟩) ∧
      h'.lookup "2026-03-20" = some 5 ∧
      (msg.isSome ↔ ∃ prev,
        (load_price_history ⟨true, .ok [("2026-03-20", 10)], true⟩).lookup "2026-03-20"
          = some prev ∧ (5 : ℚ) < prev) ∧
      (∀ s, msg = some s → s ≠ "") :=
  detect_price_drop_spec ⟨true, .ok [("2026-03-20", 10)], true⟩ "2026-03-20" 5 rfl

/-- C4 counterexample: with a stored previous price `10` and a failing write,
`detect_price_drop` raises (returns `.error ()`) instead of returning the
price-drop result — the save failure propagates to the caller, contrary to
the claim. -/
theorem detect_price_drop_save_error_counterexample :
    detect_price_drop ⟨true, .ok [("2026-03-20", 10)], false⟩ "2026-03-20" 5 = .error () := by
  decide

/-- C4 (amended): a write failure in `_save_price_history` propagates out of
`detect_price_drop` (no try/except guards the save), so no comparison result
is returned; only load failures are swallowed and treated as an empty
history. -/
theorem detect_price_drop_error_propagation :
    (∀ (io : FileIO) (date_str : String) (current_price : ℚ), io.writeOk = false →
      detect_price_drop io date_str current_price = .error ()) ∧
    (∀ (fe w : Bool) (res : History),
      load_price_history ⟨fe, .error (), w⟩ = [] ∧
      load_price_history ⟨false, .ok res, w⟩ = []) := by
  constructor
  · intro io d p hw
    have hsave : save_price_history io (dictSet d p (load_price_history io)) = .error () := by
      simp [save_price_history, hw]
    simp only [detect_price_drop, hsave, error_bind]
  · intro fe w res
    constructor
    · cases fe <;> simp [load_price_history]
    · simp [load_price_history]

/-- Witness for C4's amended claim at a concrete failing write. -/
theorem detect_price_drop_error_propagation_witness :
    detect_price_drop ⟨true, .ok [], false⟩ "d" 1 = .error () :=
  detect_price_drop_error_propagation.1 ⟨true, .ok [], false⟩ "d" 1 rfl

/-- A successful bind splits into a successful step and continuation. -/
theorem bind_ok_inv {α β : Type} {e : Except Unit α} {f : α → Except Unit β} {b : β}
    (h : (e >>= f) = .ok b) : ∃ a, e = .ok a ∧ f a = .ok b := by
  cases e with
  | error u => cases u; rw [error_bind] at h; cases h
  | ok a => exact ⟨a, rfl, by rw [ok_bind] at h; exact h⟩

/-- The stable sort is a permutation of its input. -/
theorem pySortedBy_perm {α β : Type} [LinearOrder β] (key : α → β) (l : List α) :
    (pySortedBy key l).Perm l := List.perm_insertionSort _ _

/-- The stable sort is sorted (ascending in the key). -/
theorem pySortedBy_sorted {α β : Type} [LinearOrder β] (key : α → β) (l : List α) :
    (pySortedBy key l).Pairwise (fun a b => key a ≤ key b) := by
  haveI : IsTotal α (fun a b => key a ≤ key b) := ⟨fun a b => le_total _ _⟩
  haveI : IsTrans α (fun a b => key a ≤ key b) := ⟨fun a b c h1 h2 => le_trans h1 h2⟩
  exact List.sorted_insertionSort _ _

/-- Stability: a pair in input order with non-decreasing keys stays in that
order in the sorted output. -/
theorem pySortedBy_pair {α β : Type} [LinearOrder β] (key : α → β) {a b : α} {l : List α}
    (hab : key a ≤ key b) (h : [a, b].Sublist l) : [a, b].Sublist (pySortedBy key l) :=
  List.pair_sublist_insertionSort hab h

/-- `sorted(l, key)[0]` on a nonempty list is a minimum of the list. -/
theorem pySortedBy_head_min {α β : Type} [LinearOrder β] (key : α → β) (l : List α)
    (hne : l ≠ []) :
    ∃ m, headE (pySortedBy key l) = .ok m ∧ m ∈ l ∧ ∀ y ∈ l, key m ≤ key y := by
  have hperm := pySortedBy_perm key l
  have hsorted := pySortedBy_sorted key l
  cases hs : pySortedBy key l with
  | nil =>
    exfalso
    have hlen := hperm.length_eq
    rw [hs] at hlen
    exact hne (List.eq_nil_of_length_eq_zero hlen.symm)
  | cons m rest =>
    refine ⟨m, rfl, ?_, ?_⟩
    · have hm : m ∈ pySortedBy key l := by rw [hs]; exact List.mem_cons_self _ _
      exact hperm.mem_iff.mp hm
    · intro y hy
      have hy' : y ∈ pySortedBy key l := hperm.mem_iff.mpr hy
      rw [hs] at hy'
      rcases List.mem_cons.mp hy' with rfl | hy''
      · exact le_refl _
      · have hpw := hsorted
        rw [hs] at hpw
        exact (List.pairwise_cons.mp hpw).1 y hy''

/-- Successful normalization preserves the flights in order and records their
price, layover, and parsed duration. -/
theorem normFlights_facts (fs : List Flight) (nfs : List NormFlight)
    (h : normFlights fs = .ok nfs) :
    nfs.map (fun n => n.flight) = fs ∧
    ∀ n ∈ nfs, n.price_val = n.flight.price ∧ n.layover_val = n.flight.layover_hours ∧
      parse_duration_to_minutes n.flight.duration = .ok n.duration_val := by
  induction fs generalizing nfs with
  | nil =>
    rw [show normFlights [] = Except.ok [] from rfl] at h
    cases h
    exact ⟨rfl, by simp⟩
  | cons f fs ih =>
    simp only [normFlights, List.mapM_cons] at h
    obtain ⟨b, hb, h2⟩ := bind_ok_inv h
    obtain ⟨bs, hbs, h3⟩ := bind_ok_inv h2
    rw [pure_eq_ok] at h3
    cases h3
    obtain ⟨d, hd, hb2⟩ := bind_ok_inv hb
    rw [pure_eq_ok] at hb2
    cases hb2
    obtain ⟨hmap, hfacts⟩ := ih bs hbs
    refine ⟨by simp [hmap], ?_⟩
    intro n hn
    rcases List.mem_cons.mp hn with rfl | hn
    · exact ⟨rfl, rfl, hd⟩
    · exact hfacts n hn

/-- Normalization of a nonempty flight list is nonempty. -/
theorem normFlights_ne_nil (f : Flight) (fs : List Flight) (nfs : List NormFlight)
    (h : normFlights (f :: fs) = .ok nfs) : nfs ≠ [] := by
  intro hnil
  have hmap := (normFlights_facts _ _ h).1
  rw [hnil] at hmap
  cases hmap

/-- Inversion of one non-empty-day iteration: the day normalizes
successfully, the selected cheapest flight is a first minimum of the day by
price, the day's scored entries are appended, and the running cheapest is
replaced exactly under strict less-than. -/
theorem stepDay_inv (acc acc1 : BestAcc) (day : Day) (f : Flight) (fs : List Flight)
    (hfl : day.flights = f :: fs) (h : stepDay acc day = .ok acc1) :
    ∃ norm cf,
      normFlights day.flights = .ok norm ∧
      cf ∈ norm ∧ (∀ y ∈ norm, cf.price_val ≤ y.price_val) ∧
      acc1.scored_flights = acc.scored_flights ++ scoredOfDay day.date norm ∧
      (acc.cheapest = none →
        acc1.cheapest = some ⟨day.date, cf.price_val, cf.flight.airline,
          cf.flight.layover_city, cf.layover_val⟩) ∧
      (∀ c0, acc.cheapest = some c0 →
        (cf.price_val < c0.price ∧
          acc1.cheapest = some ⟨day.date, cf.price_val, cf.flight.airline,
            cf.flight.layover_city, cf.layover_val⟩) ∨
        (¬ cf.price_val < c0.price ∧ acc1.cheapest = some c0)) := by
  simp only [stepDay, hfl] at h
  obtain ⟨norm, hnorm, h2⟩ := bind_ok_inv h
  obtain ⟨cf, hcf, h3⟩ := bind_ok_inv h2
  obtain ⟨sdf, hsdf, h4⟩ := bind_ok_inv h3
  obtain ⟨slf, hslf, h5⟩ := bind_ok_inv h4
  rw [pure_eq_ok] at h5
  injection h5 with h5
  subst h5
  have hnorm' : normFlights day.flights = .ok norm := by rw [hfl]; exact hnorm
  have hne : norm ≠ [] := by
    rw [hfl] at hnorm'
    exact normFlights_ne_nil f fs norm hnorm'
  obtain ⟨m, hm, hmem, hmin⟩ := pySortedBy_head_min (fun x => x.price_val) norm hne
  rw [hcf] at hm
  injection hm with hm
  subst hm
  refine ⟨norm, cf, hnorm', hmem, hmin, rfl, ?_, ?_⟩
  · intro hacc
    simp only [hacc]
  · intro c0 hacc
    simp only [hacc]
    by_cases hlt : cf.price_val < c0.price
    · exact Or.inl ⟨hlt, by rw [if_pos hlt]⟩
    · exact Or.inr ⟨hlt, by rw [if_neg hlt]⟩

/-- Inversion of an empty-day iteration: the accumulator is unchanged. -/
theorem stepDay_empty (acc acc1 : BestAcc) (day : Day)
    (hfl : day.flights = []) (h : stepDay acc day = .ok acc1) : acc1 = acc := by
  simp only [stepDay, hfl] at h
  injection h with h
  exact h.symm

/-- Score structure of one day's scored entries (given successful
normalization). -/
theorem scoredOfDay_mem_facts (date : String) (fs : List Flight) (nfs : List NormFlight)
    (hn : normFlights fs = .ok nfs) :
    ∀ s ∈ scoredOfDay date nfs, ∃ dm : ℤ,
      parse_duration_to_minutes s.duration = .ok dm ∧
      s.score = s.price / 1000 + (dm : ℚ) / 1000 + s.layover_hours / 10 := by
  intro s hs
  simp only [scoredOfDay, List.mem_map] at hs
  obtain ⟨n, hn', rfl⟩ := hs
  exact ⟨n.duration_val, ((normFlights_facts fs nfs hn).2 n hn').2.2, rfl⟩

/-- Composing `scoredOfDays` over a cons cell. -/
theorem scoredOfDays_cons (day : Day) (rest : List Day) (x xs : List Scored)
    (hday : scoredOfOneDay day = .ok x) (hrest : scoredOfDays rest = .ok xs) :
    scoredOfDays (day :: rest) = .ok (x ++ xs) := by
  simp only [scoredOfDays] at hrest ⊢
  obtain ⟨perDay, hp, h2⟩ := bind_ok_inv hrest
  rw [pure_eq_ok] at h2
  injection h2 with h2
  subst h2
  rw [List.mapM_cons, hday, ok_bind, hp, ok_bind, pure_eq_ok, ok_bind, pure_eq_ok]
  rw [List.flatten_cons]

/-- An empty day contributes no scored entries. -/
theorem scoredOfOneDay_empty (day : Day) (hfl : day.flights = []) :
    scoredOfOneDay day = .ok [] := by
  simp only [scoredOfOneDay, hfl]
  rfl

/-- A non-empty day contributes exactly its normalized scored entries. -/
theorem scoredOfOneDay_cons (day : Day) (f : Flight) (fs : List Flight)
    (norm : List NormFlight) (hfl : day.flights = f :: fs)
    (hnorm : normFlights day.flights = .ok norm) :
    scoredOfOneDay day = .ok (scoredOfDay day.date norm) := by
  simp only [scoredOfOneDay, hfl]
  rw [hfl] at hnorm
  rw [hnorm, ok_bind, pure_eq_ok]

/-- The fold of `compute_best_day` accumulates exactly the spec's flattened
scored-record list, in encounter order. -/
theorem fold_scored (days : List Day) :
    ∀ (acc acc' : BestAcc), days.foldlM stepDay acc = .ok acc' →
      ∃ s, scoredOfDays days = .ok s ∧
        acc'.scored_flights = acc.scored_flights ++ s := by
  induction days with
  | nil =>
    intro acc acc' h
    rw [show List.foldlM stepDay acc ([] : List Day) = Except.ok acc from rfl] at h
    injection h with h
    subst h
    exact ⟨[], rfl, by simp⟩
  | cons day rest ih =>
    intro acc acc' h
    rw [List.foldlM_cons] at h
    obtain ⟨acc1, hstep, hrest⟩ := bind_ok_inv h
    obtain ⟨s, hs, hsacc⟩ := ih acc1 acc' hrest
    cases hfl : day.flights with
    | nil =>
      have hacc1 := stepDay_empty acc acc1 day hfl hstep
      subst hacc1
      refine ⟨s, ?_, hsacc⟩
      have := scoredOfDays_cons day rest [] s (scoredOfOneDay_empty day hfl) hs
      simpa using this
    | cons f fs =>
      obtain ⟨norm, cf, hnorm, _, _, hscored, _, _⟩ :=
        stepDay_inv acc acc1 day f fs hfl hstep
      refine ⟨scoredOfDay day.date norm ++ s, ?_, ?_⟩
      · exact scoredOfDays_cons day rest _ s
          (scoredOfOneDay_cons day f fs norm hfl hnorm) hs
      · rw [hsacc, hscored, List.append_assoc]

/-- Every scored record carries the spec's composite score of its own price,
parsed duration, and layover. -/
theorem scoredOfDays_facts (days : List Day) :
    ∀ (scored : List Scored), scoredOfDays days = .ok scored →
      ∀ s ∈ scored, ∃ dm : ℤ, parse_duration_to_minutes s.duration = .ok dm ∧
        s.score = s.price / 1000 + (dm : ℚ) / 1000 + s.layover_hours / 10 := by
  induction days with
  | nil =>
    intro scored h
    rw [show scoredOfDays ([] : List Day) = Except.ok [] from rfl] at h
    injection h with h
    subst h
    simp
  | cons day rest ih =>
    intro scored h
    simp only [scoredOfDays] at h
    obtain ⟨perDay, hp, h2⟩ := bind_ok_inv h
    rw [pure_eq_ok] at h2
    injection h2 with h2
    subst h2
    rw [List.mapM_cons] at hp
    obtain ⟨x, hx, hp2⟩ := bind_ok_inv hp
    obtain ⟨xs, hxs, hp3⟩ := bind_ok_inv hp2
    rw [pure_eq_ok] at hp3
    injection hp3 with hp3
    subst hp3
    intro s hs
    rw [List.flatten_cons] at hs
    rcases List.mem_append.mp hs with hsx | hsxs
    · cases hfl : day.flights with
      | nil =>
        rw [scoredOfOneDay_empty day hfl] at hx
        injection hx with hx
        subst hx
        cases hsx
      | cons f fs =>
        simp only [scoredOfOneDay, hfl] at hx
        obtain ⟨norm, hnorm, hx2⟩ := bind_ok_inv hx
        rw [pure_eq_ok] at hx2
        injection hx2 with hx2
        subst hx2
        have hnorm' : normFlights day.flights = .ok norm := by rw [hfl]; exact hnorm
        exact scoredOfDay_mem_facts day.date day.flights norm hnorm' s hsx
    · have hrest : scoredOfDays rest = .ok xs.flatten := by
        simp only [scoredOfDays]
        rw [hxs, ok_bind, pure_eq_ok]
      exact ih xs.flatten hrest s hsxs

/-- Inversion of the final assembly of `compute_best_day`. -/
theorem compute_best_day_inv (days : List Day) (r : BestDayResult)
    (h : compute_best_day days = .ok r) :
    ∃ acc : BestAcc, days.foldlM stepDay ⟨none, none, none, []⟩ = .ok acc ∧
      r.cheapest = acc.cheapest ∧
      r.top3_overall = (pySortedBy (fun x => x.score) acc.scored_flights).take 3 := by
  simp only [compute_best_day] at h
  obtain ⟨acc, hacc, h2⟩ := bind_ok_inv h
  rw [pure_eq_ok] at h2
  injection h2 with h2
  subst h2
  exact ⟨acc, hacc, rfl, rfl⟩

/-- C1: for every input day sequence on which `compute_best_day` succeeds,
its top-3 list is the first 3 elements of the stable ascending sort (by the
score `price/1000 + duration_minutes/1000 + layover_hours/10`) of the scored
records of all non-empty days in encounter order (earlier day first, earlier
within-day position first): the sort is ascending, a permutation of the
encounter-ordered records, and stable (tied or ordered pairs keep their
encounter order); and on the spec's example with scores `[0.5, 0.5, 0.3]` in
encounter order `[A, B, C]`, the resulting order is `[C, A, B]`. -/
theorem compute_best_day_top3_spec :
    (∀ (days : List Day) (r : BestDayResult) (scored : List Scored),
      compute_best_day days = .ok r → scoredOfDays days = .ok scored →
      r.top3_overall = (pySortedBy (fun s => s.score) scored).take 3 ∧
      (pySortedBy (fun s => s.score) scored).Pairwise (fun a b => a.score ≤ b.score) ∧
      (pySortedBy (fun s => s.score) scored).Perm scored ∧
      (∀ a b : Scored, a.score ≤ b.score → [a, b].Sublist scored →
        [a, b].Sublist (pySortedBy (fun s => s.score) scored)) ∧
      (∀ s ∈ scored, ∃ dm : ℤ, parse_duration_to_minutes s.duration = .ok dm ∧
        s.score = s.price / 1000 + (dm : ℚ) / 1000 + s.layover_hours / 10)) ∧
    (compute_best_day exampleDaysC1).map (fun r => r.top3_overall.map (fun s => s.airline))
      = .ok ["C", "A", "B"] := by
  constructor
  · intro days r scored hr hs
    obtain ⟨acc, hacc, _, htop3⟩ := compute_best_day_inv days r hr
    obtain ⟨s', hs', hsacc⟩ := fold_scored days _ _ hacc
    rw [hs] at hs'
    injection hs' with hs'
    subst hs'
    have hacc_scored : acc.scored_flights = scored := by simpa using hsacc
    refine ⟨?_, pySortedBy_sorted _ _, pySortedBy_perm _ _, ?_,
      scoredOfDays_facts days scored hs⟩
    · rw [htop3, hacc_scored]
    · intro a b hab hsub
      exact pySortedBy_pair _ hab hsub
  · have hp : parse_duration_to_minutes "0h 0m" = .ok 0 := by decide
    simp only [compute_best_day, exampleDaysC1, mkFlight, stepDay, normFlights, scoredOfDay,
      pySortedBy, headE, List.foldlM_cons, List.foldlM_nil, List.mapM_cons, List.mapM_nil,
      hp, ok_bind, error_bind, pure_eq_ok, List.insertionSort, List.orderedInsert,
      List.map_cons, List.map_nil, Except.map]
    norm_num [headE, List.insertionSort, List.orderedInsert, List.map_cons, List.map_nil,
      ok_bind, pure_eq_ok, Except.map, List.take]

/-- Witness for C1 at the empty day sequence. -/
theorem compute_best_day_top3_spec_witness :
    (⟨none, none, none, [], ""⟩ : BestDayResult).top3_overall
      = (pySortedBy (fun s => s.score) ([] : List Scored)).take 3 :=
  (compute_best_day_top3_spec.1 [] ⟨none, none, none, [], ""⟩ [] (by decide) (by decide)).1

/-- Invariant of the cheapest-day fold: the cheapest entry is `none` exactly
while nothing has been seen, and otherwise records a global minimum over all
processed prices, held by the first day attaining it (replacement happens
only under strict less-than). -/
theorem fold_cheapest (days : List Day) :
    ∀ (acc acc' : BestAcc), days.foldlM stepDay acc = .ok acc' →
      ((acc'.cheapest = none ↔ (acc.cheapest = none ∧ ∀ d ∈ days, d.flights = [])) ∧
       (∀ c, acc'.cheapest = some c →
         ((acc.cheapest = some c ∧ ∀ p ∈ allPrices days, c.price ≤ p) ∨
          (∃ pre d post, days = pre ++ d :: post ∧ d.date = c.date ∧
            c.price ∈ dayPrices d ∧
            (∀ p ∈ dayPrices d, c.price ≤ p) ∧
            (∀ p ∈ allPrices post, c.price ≤ p) ∧
            (∀ d' ∈ pre, ∀ p ∈ dayPrices d', c.price < p) ∧
            (∀ c0, acc.cheapest = some c0 → c.price < c0.price))))) := by
  induction days with
  | nil =>
    intro acc acc' h
    rw [show List.foldlM stepDay acc ([] : List Day) = Except.ok acc from rfl] at h
    injection h with h
    subst h
    constructor
    · simp
    · intro c hc
      exact Or.inl ⟨hc, by simp [allPrices]⟩
  | cons day rest ih =>
    intro acc acc' h
    rw [List.foldlM_cons] at h
    obtain ⟨acc1, hstep, hrest⟩ := bind_ok_inv h
    obtain ⟨ihnone, ihsome⟩ := ih acc1 acc' hrest
    cases hfl : day.flights with
    | nil =>
      have hacc1 := stepDay_empty acc acc1 day hfl hstep
      subst hacc1
      have hdp : dayPrices day = [] := by simp [dayPrices, hfl]
      constructor
      · rw [ihnone]
        constructor
        · rintro ⟨h1, h2⟩
          refine ⟨h1, ?_⟩
          intro d hd
          rcases List.mem_cons.mp hd with rfl | hd
          · exact hfl
          · exact h2 d hd
        · rintro ⟨h1, h2⟩
          exact ⟨h1, fun d hd => h2 d (List.mem_cons_of_mem _ hd)⟩
      · intro c hc
        rcases ihsome c hc with ⟨hacc, hall⟩ |
          ⟨pre, d, post, hdec, hdate, hmem, hdle, hpost, hpre, hprev⟩
        · refine Or.inl ⟨hacc, ?_⟩
          intro p hp
          simp only [allPrices, List.flatMap_cons, List.mem_append, hdp] at hp
          rcases hp with hp | hp
          · cases hp
          · exact hall p hp
        · refine Or.inr ⟨day :: pre, d, post, by rw [hdec, List.cons_append],
            hdate, hmem, hdle, hpost, ?_, hprev⟩
          intro d' hd'
          rcases List.mem_cons.mp hd' with rfl | hd''
          · intro p hp
            rw [hdp] at hp
            cases hp
          · exact hpre d' hd''
    | cons f fs =>
      obtain ⟨norm, cf, hnorm, hcfmem, hcfmin, _, hnone_case, hsome_case⟩ :=
        stepDay_inv acc acc1 day f fs hfl hstep
      have hfacts := normFlights_facts day.flights norm hnorm
      have hcf_price : cf.price_val = cf.flight.price := (hfacts.2 cf hcfmem).1
      have hcf_mem_day : cf.price_val ∈ dayPrices day := by
        rw [hcf_price]
        exact List.mem_map_of_mem _ (by
          rw [← hfacts.1]
          exact List.mem_map_of_mem _ hcfmem)
      have hday_min : ∀ p ∈ dayPrices day, cf.price_val ≤ p := by
        intro p hp
        simp only [dayPrices, List.mem_map] at hp
        obtain ⟨g, hg, rfl⟩ := hp
        rw [← hfacts.1] at hg
        obtain ⟨n, hn, rfl⟩ := List.mem_map.mp hg
        have hle := hcfmin n hn
        rw [(hfacts.2 n hn).1] at hle
        exact hle
      constructor
      · constructor
        · intro h0
          have hnone1 := (ihnone.mp h0).1
          cases hac : acc.cheapest with
          | none => rw [hnone_case hac] at hnone1; cases hnone1
          | some c0 =>
            rcases hsome_case c0 hac with ⟨_, heq⟩ | ⟨_, heq⟩ <;>
              rw [heq] at hnone1 <;> cases hnone1
        · rintro ⟨_, hallempty⟩
          exact absurd (hallempty day (List.mem_cons_self _ _)) (by rw [hfl]; simp)
      · intro c hc
        rcases ihsome c hc with ⟨hacc1c, hallrest⟩ |
          ⟨pre, d, post, hdec, hdate, hmem, hdle, hpost, hpre, hprev⟩
        · cases hac : acc.cheapest with
          | none =>
            have heq := hnone_case hac
            rw [hacc1c] at heq
            injection heq with heq
            subst heq
            refine Or.inr ⟨[], day, rest, rfl, rfl, hcf_mem_day, hday_min, hallrest,
              by simp, by simp [hac]⟩
          | some c0 =>
            rcases hsome_case c0 hac with ⟨hlt, heq⟩ | ⟨hnlt, heq⟩
            · rw [hacc1c] at heq
              injection heq with heq
              subst heq
              refine Or.inr ⟨[], day, rest, rfl, rfl, hcf_mem_day, hday_min, hallrest,
                by simp, ?_⟩
              intro c0' hc0'
              injection hc0' with hc0'
              subst hc0'
              exact hlt
            · rw [hacc1c] at heq
              injection heq with heq
              subst heq
              refine Or.inl ⟨rfl, ?_⟩
              intro p hp
              simp only [allPrices, List.flatMap_cons, List.mem_append] at hp
              rcases hp with hp | hp
              · exact le_trans (not_lt.mp hnlt) (hday_min p hp)
              · exact hallrest p hp
        · refine Or.inr ⟨day :: pre, d, post, by rw [hdec, List.cons_append],
            hdate, hmem, hdle, hpost, ?_, ?_⟩
          · intro d' hd'
            rcases List.mem_cons.mp hd' with rfl | hd''
            · intro p hp
              have hvle : ∃ v, acc1.cheapest = some v ∧ v.price ≤ cf.price_val := by
                cases hac : acc.cheapest with
                | none => exact ⟨_, hnone_case hac, le_refl _⟩
                | some c0 =>
                  rcases hsome_case c0 hac with ⟨hlt, heq⟩ | ⟨hnlt, heq⟩
                  · exact ⟨_, heq, le_refl _⟩
                  · exact ⟨c0, heq, not_lt.mp hnlt⟩
              obtain ⟨v, hv, hvle⟩ := hvle
              exact lt_of_lt_of_le (hprev v hv) (le_trans hvle (hday_min p hp))
            · exact hpre d' hd''
          · intro c0 hc0
            have hltv : ∃ v, acc1.cheapest = some v ∧ v.price ≤ c0.price := by
              rcases hsome_case c0 hc0 with ⟨hlt, heq⟩ | ⟨hnlt, heq⟩
              · exact ⟨_, heq, le_of_lt hlt⟩
              · exact ⟨c0, heq, le_refl _⟩
            obtain ⟨v, hv, hvle⟩ := hltv
            exact lt_of_lt_of_le (hprev v hv) hvle

/-- C2: whenever `compute_best_day` succeeds, its cheapest entry is absent
exactly when every day is empty, and otherwise references a day holding the
globally minimum price: its price bounds every price of every day, the named
day is in the input and contains a flight at that price, and every strictly
earlier day has only strictly greater prices (first-seen day wins ties,
since replacement requires strict less-than); on the spec's example with
day prices `[100, 50, 200]`, `[300]`, `[10]`, the cheapest entry references
the day `d3` containing price `10`. -/
theorem compute_best_day_cheapest_spec :
    (∀ (days : List Day) (r : BestDayResult), compute_best_day days = .ok r →
      ((r.cheapest = none ↔ ∀ d ∈ days, d.flights = []) ∧
       ∀ c, r.cheapest = some c →
         (∀ p ∈ allPrices days, c.price ≤ p) ∧
         ∃ pre d post, days = pre ++ d :: post ∧ d.date = c.date ∧
           c.price ∈ dayPrices d ∧
           ∀ d' ∈ pre, ∀ p ∈ dayPrices d', c.price < p)) ∧
    (compute_best_day exampleDaysC2).map (fun r => r.cheapest.map (fun c => (c.date, c.price)))
      = .ok (some ("d3", (10 : ℚ))) := by
  constructor
  · intro days r hr
    obtain ⟨acc, hacc, hch, _⟩ := compute_best_day_inv days r hr
    obtain ⟨hnone, hsome⟩ := fold_cheapest days _ _ hacc
    constructor
    · rw [hch, hnone]
      simp
    · intro c hc
      rw [hch] at hc
      rcases hsome c hc with ⟨habs, _⟩ |
        ⟨pre, d, post, hdec, hdate, hmem, hdle, hpost, hpre, _⟩
      · exact absurd habs (by simp)
      · refine ⟨?_, pre, d, post, hdec, hdate, hmem, hpre⟩
        intro p hp
        rw [hdec] at hp
        have happ : allPrices (pre ++ d :: post)
            = allPrices pre ++ (dayPrices d ++ allPrices post) := by
          simp only [allPrices, List.flatMap_append, List.flatMap_cons]
        rw [happ] at hp
        rcases List.mem_append.mp hp with hp | hp
        · obtain ⟨d', hd', hp'⟩ := List.mem_flatMap.mp hp
          exact le_of_lt (hpre d' hd' p hp')
        · rcases List.mem_append.mp hp with hp | hp
          · exact hdle p hp
          · exact hpost p hp
  · have hp : parse_duration_to_minutes "1h" = .ok 60 := by decide
    simp only [compute_best_day, exampleDaysC2, mkFlight, stepDay, normFlights, scoredOfDay,
      pySortedBy, headE, List.foldlM_cons, List.foldlM_nil, List.mapM_cons, List.mapM_nil,
      hp, ok_bind, error_bind, pure_eq_ok, List.insertionSort, List.orderedInsert,
      List.map_cons, List.map_nil, Except.map]
    norm_num [headE, List.insertionSort, List.orderedInsert, List.map_cons, List.map_nil,
      ok_bind, pure_eq_ok, Except.map, List.take]

/-- Witness for C2 at the empty day sequence. -/
theorem compute_best_day_cheapest_spec_witness :
    (⟨none, none, none, [], ""⟩ : BestDayResult).cheapest = none ↔
      ∀ d ∈ ([] : List Day), d.flights = [] :=
  (compute_best_day_cheapest_spec.1 [] ⟨none, none, none, [], ""⟩ (by decide)).1

/-- C7 counterexample: on an empty per-day mapping, `build_daily_sections`
returns the EMPTY string, not a non-empty placeholder line. -/
theorem build_daily_sections_empty_counterexample :
    ¬ (∀ s, build_daily_sections [] = .ok s → s ≠ "") := fun h =>
  h "" (by decide) rfl

/-- C7 (amended): the best-day, top-3, and carrier subsections produce
explicit non-empty placeholder lines when their data is absent, and the full
report on empty inputs is a well-formed string containing all three
placeholders — but the per-day section for an empty mapping is the empty
string, not a placeholder. -/
theorem report_placeholder_spec :
    build_best_day_section ⟨none, none, none⟩ = .ok "No best-day summary available." ∧
    build_top3_overall_section [] = .ok "No top-3 overall days available." ∧
    (∀ daily_raw : Daily, etihad_rows daily_raw = [] →
      etihad_section daily_raw
        = .ok "✈️ ETIHAD AIRWAYS — No flights found for this date range.") ∧
    build_daily_sections [] = .ok "" ∧
    build_full_report ⟨none, none, none⟩ [] []
      = .ok ("No best-day summary available.\n\nNo top-3 overall days available.\n\n✈️ ETIHAD AIRWAYS — No flights found for this date range.\n\n") := by
  refine ⟨by decide, by decide, ?_, by decide, by decide⟩
  intro daily_raw h
  simp [etihad_section, etihad_rows_sorted, h, pySortedBy]
  rfl

/-- Witness for C7's amended claim at the empty mapping. -/
theorem report_placeholder_spec_witness :
    etihad_section [] = .ok "✈️ ETIHAD AIRWAYS — No flights found for this date range." :=
  report_placeholder_spec.2.2.1 [] (by decide)

/-- C8: the Etihad subsection's rows are exactly the records whose resolved
airline name case-insensitively contains `"etihad"`, collected in per-day
order; the rendered list is a permutation of them sorted ascending by price;
no match yields the literal no-flights placeholder; and on the spec's
example the Air Canada record is dropped while the two Etihad records priced
`[500, 300]` appear as `[300, 500]`. -/
theorem etihad_subsection_spec :
    (∀ (daily_raw : Daily) (row : EtihadRow),
      row ∈ etihad_rows daily_raw ↔
        ∃ p ∈ daily_raw, ∃ f ∈ p.2, etihadMatches f.airline = true ∧
          row = ⟨p.1, f.price, f.duration, f.layover_hours⟩) ∧
    (∀ daily_raw : Daily,
      (etihad_rows_sorted daily_raw).Perm (etihad_rows daily_raw) ∧
      (etihad_rows_sorted daily_raw).Pairwise (fun a b => a.price ≤ b.price)) ∧
    (∀ daily_raw : Daily, etihad_rows daily_raw = [] →
      etihad_section daily_raw
        = .ok "✈️ ETIHAD AIRWAYS — No flights found for this date range.") ∧
    etihadMatches "EY — Etihad Airways" = true ∧
    etihadMatches "AC — Air Canada" = false ∧
    etihad_rows_sorted exampleDailyC8
      = [⟨"d1", 300, "1h", 0⟩, ⟨"d1", 500, "1h", 0⟩] := by
  refine ⟨?_, ?_, ?_, by decide, by decide, by decide⟩
  · intro daily_raw row
    simp only [etihad_rows, List.mem_flatMap, List.mem_map, List.mem_filter]
    constructor
    · rintro ⟨p, hp, f, ⟨hf, hm⟩, rfl⟩
      exact ⟨p, hp, f, hf, hm, rfl⟩
    · rintro ⟨p, hp, f, hf, hm, rfl⟩
      exact ⟨p, hp, f, ⟨hf, hm⟩, rfl⟩
  · intro daily_raw
    exact ⟨pySortedBy_perm _ _, pySortedBy_sorted _ _⟩
  · intro daily_raw h
    simp [etihad_section, etihad_rows_sorted, h, pySortedBy]
    rfl

/-- Witness for C8 at the spec's example mapping. -/
theorem etihad_subsection_spec_witness :
    (⟨"d1", 500, "1h", 0⟩ : EtihadRow) ∈ etihad_rows exampleDailyC8 :=
  (etihad_subsection_spec.1 exampleDailyC8 ⟨"d1", 500, "1h", 0⟩).mpr
    ⟨("d1", [mkFlight "EY — Etihad Airways" 500 "1h" 0,
             mkFlight "AC — Air Canada" 100 "1h" 0,
             mkFlight "EY — Etihad Airways" 300 "1h" 0]),
      by decide, mkFlight "EY — Etihad Airways" 500 "1h" 0, by decide, by decide, by decide⟩

/-- No upper-case latin letter lowers to a dash. -/
theorem ofNat_shift_ne_dash (n : ℕ) (h1 : 65 ≤ n) (h2 : n ≤ 90) :
    Char.ofNat (n + 32) ≠ '-' := by
  interval_cases n <;> decide

/-- Only the dash lowers to a dash. -/
theorem toLower_eq_dash {c : Char} (h : c.toLower = '-') : c = '-' := by
  unfold Char.toLower at h
  simp only [] at h
  by_cases hc : c.toNat ≥ 65 ∧ c.toNat ≤ 90
  · rw [if_pos hc] at h
    exact absurd h (ofNat_shift_ne_dash c.toNat hc.1 hc.2)
  · rw [if_neg hc] at h
    exact h

/-- Every character of a replacement result comes from the replacement text
or the original string. -/
theorem pyReplaceAux_mem (pat repl : List Char) :
    ∀ (fuel : ℕ) (l : List Char) (c : Char),
      c ∈ pyReplaceAux pat repl fuel l → c ∈ repl ∨ c ∈ l := by
  intro fuel
  induction fuel with
  | zero => exact fun l c hc => Or.inr hc
  | succ fuel ih =>
    intro l c hc
    cases l with
    | nil => cases hc
    | cons a rest =>
      rw [pyReplaceAux] at hc
      split_ifs at hc with hp
      · rcases List.mem_append.mp hc with hc | hc
        · exact Or.inl hc
        · rcases ih _ c hc with hc | hc
          · exact Or.inl hc
          · exact Or.inr (List.mem_of_mem_drop hc)
      · rcases List.mem_cons.mp hc with rfl | hc
        · exact Or.inr (List.mem_cons_self _ _)
        · rcases ih _ c hc with hc | hc
          · exact Or.inl hc
          · exact Or.inr (List.mem_cons_of_mem _ hc)

/-- Same statement for `pyReplace`. -/
theorem pyReplace_mem (pat repl l : List Char) (c : Char)
    (h : c ∈ pyReplace pat repl l) : c ∈ repl ∨ c ∈ l :=
  pyReplaceAux_mem pat repl l.length l c h

/-- The duration display transform introduces no dash. -/
theorem durationDisplay_no_dash (iso : String) (h : '-' ∉ iso.toList) :
    '-' ∉ (durationDisplay iso).toList := by
  intro hmem
  have h1 := pyReplace_mem _ _ _ _ hmem
  rcases h1 with h1 | h1
  · simp at h1
  · have h2 := pyReplace_mem _ _ _ _ h1
    rcases h2 with h2 | h2
    · simp at h2
    · obtain ⟨c, hc, hcl⟩ := List.mem_map.mp h2
      have hcd : c = '-' := toLower_eq_dash hcl
      subst hcd
      have h3 := pyReplace_mem _ _ _ _ hc
      rcases h3 with h3 | h3
      · cases h3
      · exact h h3

/-- A signless digit string never parses to a negative integer. -/
theorem pyInt_nonneg (l : List Char) (z : ℤ) (h : pyInt l = .ok z)
    (hd : '-' ∉ l) : 0 ≤ z := by
  cases l with
  | nil => cases h
  | cons c cs =>
    rw [pyInt] at h
    split_ifs at h with h1 h2
    · exact absurd (h1 ▸ List.mem_cons_self c cs) hd
    · cases hv : digitsVal cs with
      | error e => rw [hv] at h; cases h
      | ok n =>
        rw [hv] at h
        simp only [Except.map] at h
        injection h with h
        subst h
        positivity
    · cases hv : digitsVal (c :: cs) with
      | error e => rw [hv] at h; cases h
      | ok n =>
        rw [hv] at h
        simp only [Except.map] at h
        injection h with h
        subst h
        positivity

theorem parse_duration_nonneg (s : String) (z : ℤ)
    (hok : parse_duration_to_minutes s = .ok z) (hd : '-' ∉ s.toList) : 0 ≤ z := by
  have hparts0 : '-' ∉ (s.toList.map Char.toLower).filter (fun c => c ≠ ' ') := by
    intro hmem
    obtain ⟨c, hc, hcl⟩ := List.mem_map.mp (List.mem_of_mem_filter hmem)
    exact hd (toLower_eq_dash hcl ▸ hc)
  have hrest : ((((s.toList.map Char.toLower).filter (fun c => c ≠ ' ')).dropWhile
      (fun c => c ≠ 'h')).tail).takeWhile (fun c => c ≠ 'h') ⊆
      (s.toList.map Char.toLower).filter (fun c => c ≠ ' ') :=
    ((List.takeWhile_sublist _).trans ((List.tail_sublist _).trans
      (List.dropWhile_sublist _))).subset
  have hhpart : ((s.toList.map Char.toLower).filter (fun c => c ≠ ' ')).takeWhile
      (fun c => c ≠ 'h') ⊆ (s.toList.map Char.toLower).filter (fun c => c ≠ ' ') :=
    (List.takeWhile_sublist _).subset
  simp only [parse_duration_to_minutes] at hok
  split at hok
  · cases hok
  · rename_i hours parts heq1
    split at hok
    · cases hok
    · rename_i minutes heq2
      injection hok with hok
      subst hok
      have hA : 0 ≤ hours ∧ '-' ∉ parts := by
        split_ifs at heq1 with hin hemp
        · injection heq1 with heq1
          injection heq1 with ha hb
          refine ⟨by omega, ?_⟩
          rw [← hb]
          exact fun hm => absurd (hrest hm) hparts0
        · cases hv : pyInt (((s.toList.map Char.toLower).filter
              (fun c => c ≠ ' ')).takeWhile (fun c => c ≠ 'h')) with
          | error e => rw [hv] at heq1; cases heq1
          | ok n =>
            rw [hv] at heq1
            simp only [Except.map] at heq1
            injection heq1 with heq1
            injection heq1 with ha hb
            constructor
            · rw [← ha]
              exact pyInt_nonneg _ n hv (fun hm => absurd (hhpart hm) hparts0)
            · rw [← hb]
              exact fun hm => absurd (hrest hm) hparts0
        · injection heq1 with heq1
          injection heq1 with ha hb
          exact ⟨by omega, by rw [← hb]; exact hparts0⟩
      have hB : 0 ≤ minutes := by
        split_ifs at heq2 with hin2 hemp2
        · injection heq2 with heq2
          omega
        · exact pyInt_nonneg _ minutes heq2
            (fun hm => absurd ((List.takeWhile_sublist _).subset hm) hA.2)
        · injection heq2 with heq2
          omega
      obtain ⟨hh0, -⟩ := hA
      omega

/-- Banker's rounding preserves non-negativity. -/
theorem roundHalfEven_nonneg (q : ℚ) (h : 0 ≤ q) : 0 ≤ roundHalfEven q := by
  unfold roundHalfEven
  have h0 : (0 : ℤ) ≤ ⌊q⌋ := Int.floor_nonneg.mpr h
  split_ifs <;> omega

/-- Rounding to one decimal place preserves non-negativity. -/
theorem round1_nonneg (q : ℚ) (h : 0 ≤ q) : 0 ≤ round1 q := by
  unfold round1
  have h1 : (0 : ℤ) ≤ roundHalfEven (10 * q) :=
    roundHalfEven_nonneg _ (by positivity)
  have h2 : (0 : ℚ) ≤ (roundHalfEven (10 * q) : ℚ) := Int.cast_nonneg.mpr h1
  positivity

theorem keyE_ok {α : Type} {o : Option α} {a : α} (h : keyE o = .ok a) : o = some a := by
  cases o with
  | none => exact absurd h (by simp [keyE])
  | some b =>
    simp only [keyE] at h
    injection h with h
    rw [h]

theorem extract_offer_inv (lookup : List (String × String)) (offer : RawOffer) (f : Flight)
    (h : extract_offer lookup offer = .ok f) :
    (∃ po : RawPrice, offer.price = some po ∧ po.total = some f.price) ∧
    (∃ itin rest, offer.itineraries.getD [] = itin :: rest ∧
      f.duration = durationDisplay (itin.duration.getD "") ∧
      (f.layover_hours = 0 ∨
        ∃ s0 s1 srest a1 a2 t1 t2,
          itin.segments.getD [] = s0 :: s1 :: srest ∧
          segArrivalAt s0 = some a1 ∧ segDepartureAt s1 = some a2 ∧
          strptimeYmdHMS a1 = .ok t1 ∧ strptimeYmdHMS a2 = .ok t2 ∧
          f.layover_hours =
            round1 ((((totalSecondsM t2 : ℤ) - (totalSecondsM t1 : ℤ) : ℤ) : ℚ) / 3600))) := by
  simp only [extract_offer] at h
  cases hil : offer.itineraries.getD [] with
  | nil =>
    rw [hil] at h
    dsimp only at h
    rw [error_bind] at h
    exact Except.noConfusion h
  | cons i irest =>
    rw [hil] at h
    dsimp only at h
    rw [ok_bind] at h
    cases hsg : i.segments.getD [] with
    | nil =>
      rw [hsg] at h
      dsimp only at h
      rw [error_bind] at h
      exact Except.noConfusion h
    | cons a tail =>
      rw [hsg] at h
      dsimp only at h
      rw [ok_bind] at h
      obtain ⟨po, hpo, h⟩ := bind_ok_inv h
      obtain ⟨pr, hpr, h⟩ := bind_ok_inv h
      cases tail with
      | nil =>
        dsimp only at h
        rw [pure_eq_ok, ok_bind] at h
        obtain ⟨dep, hdep, h⟩ := bind_ok_inv h
        dsimp only [List.getLast?] at h
        rw [ok_bind] at h
        obtain ⟨arrv, harr, h⟩ := bind_ok_inv h
        rw [pure_eq_ok] at h
        injection h with h
        subst h
        exact ⟨⟨po, keyE_ok hpo, keyE_ok hpr⟩, i, irest, rfl, rfl, Or.inl rfl⟩
      | cons s1 tail2 =>
        dsimp only at h
        obtain ⟨a1, ha1, h⟩ := bind_ok_inv h
        obtain ⟨a2, ha2, h⟩ := bind_ok_inv h
        obtain ⟨t1, ht1, h⟩ := bind_ok_inv h
        obtain ⟨t2, ht2, h⟩ := bind_ok_inv h
        obtain ⟨ar0, har0, h⟩ := bind_ok_inv h
        obtain ⟨city, hcity, h⟩ := bind_ok_inv h
        rw [pure_eq_ok, ok_bind] at h
        obtain ⟨dep, hdep, h⟩ := bind_ok_inv h
        cases hgl : (a :: s1 :: tail2).getLast? with
        | none => simp at hgl
        | some ls =>
          rw [hgl] at h
          dsimp only at h
          rw [ok_bind] at h
          obtain ⟨arrv, harr, h⟩ := bind_ok_inv h
          rw [pure_eq_ok] at h
          injection h with h
          subst h
          exact ⟨⟨po, keyE_ok hpo, keyE_ok hpr⟩, i, irest, rfl, rfl,
            Or.inr ⟨a, s1, tail2, a1, a2, t1, t2, hsg, keyE_ok ha1, keyE_ok ha2,
              ht1, ht2, rfl⟩⟩

/-- Every extracted flight comes from some offer whose extraction succeeded
(or was already in the accumulator). -/
theorem extract_flights_mem (lookup : List (String × String)) (offers : List RawOffer) :
    ∀ (acc : List Flight) (f : Flight),
      f ∈ offers.foldl (fun acc offer =>
        match extract_offer lookup offer with
        | .ok g => acc ++ [g]
        | .error _ => acc) acc →
      f ∈ acc ∨ ∃ o ∈ offers, extract_offer lookup o = .ok f := by
  induction offers with
  | nil => exact fun acc f hf => Or.inl hf
  | cons o os ih =>
    intro acc f hf
    rw [List.foldl_cons] at hf
    cases he : extract_offer lookup o with
    | ok g =>
      rw [he] at hf
      dsimp only at hf
      rcases ih _ f hf with hacc | ⟨o', ho', he'⟩
      · rcases List.mem_append.mp hacc with h1 | h1
        · exact Or.inl h1
        · have hfg : f = g := List.mem_singleton.mp h1
          subst hfg
          exact Or.inr ⟨o, List.mem_cons_self _ _, he⟩
      · exact Or.inr ⟨o', List.mem_cons_of_mem _ ho', he'⟩
    | error e =>
      rw [he] at hf
      dsimp only at hf
      rcases ih _ f hf with hacc | ⟨o', ho', he'⟩
      · exact Or.inl hacc
      · exact Or.inr ⟨o', List.mem_cons_of_mem _ ho', he'⟩

/-- C9 as written is false: `extract_flights` performs no validation, so a
payload whose offer carries a negative price total yields a flight with a
negative price. -/
theorem extract_flights_nonneg_counterexample :
    ¬ (∀ f ∈ extract_flights (some cexPayload) [], 0 ≤ f.price ∧ 0 ≤ f.layover_hours) := by
  decide

/-- C9, amended: under the hypotheses that every price total in the payload is
non-negative, that layover timestamps are chronologically ordered, and that no
raw itinerary duration contains a dash, every extracted flight has a
non-negative price, a non-negative layover, and a duration string that parses
(when it parses at all) to a non-negative number of minutes. -/
theorem extract_flights_nonneg_spec (payload : RawPayload) (lookup : List (String × String))
    (hprice : ∀ o ∈ payload.data.getD [], ∀ po, o.price = some po →
      ∀ t, po.total = some t → 0 ≤ t)
    (htimes : ∀ o ∈ payload.data.getD [], segTimesOrdered o)
    (hdur : ∀ o ∈ payload.data.getD [], ∀ itin ∈ o.itineraries.getD [],
      '-' ∉ (itin.duration.getD "").toList) :
    ∀ f ∈ extract_flights (some payload) lookup,
      0 ≤ f.price ∧ 0 ≤ f.layover_hours ∧
      ∀ dm : ℤ, parse_duration_to_minutes f.duration = .ok dm → 0 ≤ dm := by
  intro f hf
  simp only [extract_flights] at hf
  cases hd : payload.data with
  | none =>
    rw [hd] at hf
    exact absurd hf (List.not_mem_nil f)
  | some offers =>
    rw [hd] at hf
    dsimp only at hf
    rcases extract_flights_mem lookup offers [] f hf with hacc | ⟨o, ho, he⟩
    · exact absurd hacc (List.not_mem_nil f)
    · obtain ⟨⟨po, hpo, hptot⟩, itin, rest, hil, hfdur, hlay⟩ := extract_offer_inv lookup o f he
      have ho' : o ∈ payload.data.getD [] := by rw [hd]; exact ho
      refine ⟨hprice o ho' po hpo f.price hptot, ?_, ?_⟩
      · rcases hlay with h0 | ⟨s0, s1, srest, a1, a2, t1, t2, hsg, hA1, hA2, hT1, hT2, hEq⟩
        · exact le_of_eq h0.symm
        · rw [hEq]
          apply round1_nonneg
          have hle := htimes o ho' itin rest hil s0 s1 srest hsg a1 a2 t1 t2 hA1 hA2 hT1 hT2
          have hz : (0 : ℤ) ≤ (totalSecondsM t2 : ℤ) - (totalSecondsM t1 : ℤ) := by
            omega
          have hq : (0 : ℚ) ≤ (((totalSecondsM t2 : ℤ) - (totalSecondsM t1 : ℤ) : ℤ) : ℚ) := by
            exact_mod_cast hz
          exact div_nonneg hq (by norm_num)
      · intro dm hdm
        rw [hfdur] at hdm
        exact parse_duration_nonneg _ dm hdm
          (durationDisplay_no_dash _ (hdur o ho' itin (by rw [hil]; exact List.mem_cons_self _ _)))

theorem extract_flights_nonneg_spec_witness :
    ∃ f, f ∈ extract_flights (some okPayload) [] ∧ 0 ≤ f.price ∧ 0 ≤ f.layover_hours ∧
      ∀ dm : ℤ, parse_duration_to_minutes f.duration = .ok dm → 0 ≤ dm := by
  have hmem : Flight.mk "EY" 450 "8h 30m" 0 "" 0 "2026-03-20T01:00:00"
      "2026-03-20T09:30:00" ∈ extract_flights (some okPayload) [] := by
    decide
  refine ⟨_, hmem, extract_flights_nonneg_spec okPayload [] ?_ ?_ ?_ _ hmem⟩
  · intro o ho po hpo t ht
    simp only [okPayload, Option.getD_some, List.mem_singleton] at ho
    subst ho
    simp only at hpo
    injection hpo with hpo
    subst hpo
    injection ht with ht
    rw [← ht]
    norm_num
  · intro o ho
    simp only [okPayload, Option.getD_some, List.mem_singleton] at ho
    subst ho
    intro itin rest hil s0 s1 srest hsg a1 a2 t1 t2 _ _ _ _
    simp only [Option.getD_some] at hil
    injection hil with h1 h2
    subst h1
    simp at hsg
  · intro o ho itin hitin
    simp only [okPayload, Option.getD_some, List.mem_singleton] at ho
    subst ho
    simp only [Option.getD_some, List.mem_singleton] at hitin
    subst hitin
    decide
